import Mathlib

/- Shallow embedding of `src/app/workflow_graph/workflow.js` (class `WorkflowGraph`):
   the graph model (`setData` / `_validateAndBuildGraph`), Kahn topological sort
   (`topoSort`), layer depths (`_computeDepths`), and the layered layout
   (`relayout` / `_ensurePositionsForMissing`).

   Modelling conventions:
   - a JS `Map` is an insertion-ordered association list `List (key × value)`;
     `Map.get` reads the first matching key, `Map.set` replaces the value at the
     first occurrence of the key (keeping its position) or appends a fresh entry,
     and iteration over `entries()` is iteration over the list;
   - a JS `Set` (`this.dragged`) is a `List String` used up to membership;
   - JS numbers are `Int` where the code only counts (in-degrees) and `Rat` where
     the code does coordinate arithmetic (positions, widths);
   - a thrown `Error` is an `Option String` result carrying the message; the
     mutations performed before the throw are kept in the returned state, exactly
     as the JS object keeps them. -/

namespace Workflow

/-- JS `Map.get`: value at the first occurrence of the key, if any. -/
def mapGet {α β : Type} [DecidableEq α] : List (α × β) → α → Option β
  | [], _ => none
  | (k, v) :: rest, x => if k = x then some v else mapGet rest x

/-- JS `Map.set`: replace the value at the first occurrence of the key, keeping
    its position, or append a new entry at the end. -/
def mapSet {α β : Type} [DecidableEq α] : List (α × β) → α → β → List (α × β)
  | [], x, v => [(x, v)]
  | (k, w) :: rest, x, v =>
    if k = x then (x, v) :: rest else (k, w) :: mapSet rest x v

/-- A derived edge `{from, to}` (JS line `this.edges.push({ from: depId, to: n.id })`).
    `from` is a Lean keyword, so the field is named `fromId`. -/
structure Edge where
  fromId : String
  toId : String
deriving DecidableEq, Repr

/-- A raw `depends_on` entry: JS reads `dep.node_id` guarded by
    `typeof dep.node_id === "string"`; a missing/non-string `node_id` is `none`. -/
structure RawDep where
  node_id : Option String
deriving DecidableEq, Repr

/-- A raw node record. `id` is `none` when the JS value is absent or not a string
    (`typeof n.id !== "string"`); `depends_on` entries are `none` when the JS
    entry is falsy (`dep &&` guard); a `depends_on` that is absent or not an
    array is the empty list (`Array.isArray(n.depends_on) ? n.depends_on : []`). -/
structure RawNode where
  id : Option String
  depends_on : List (Option RawDep)
deriving DecidableEq, Repr

/-- The raw workflow object: `nodes` is `none` when `this.data.nodes` is not an
    array (`Array.isArray(this.data.nodes) ? this.data.nodes : []`); list entries
    are `none` for falsy node values (the `!n` guard). -/
structure RawWorkflow where
  nodes : Option (List (Option RawNode))
deriving DecidableEq, Repr

/-- Result record of `topoSort`: `{ ok, order }`. -/
structure TopoResult where
  ok : Bool
  order : List String
deriving DecidableEq, Repr

/-- Body of the inner `for (const nxt of out.get(id))` loop of `topoSort`:
    decrement the in-degree of each successor in turn, enqueueing (at the back)
    any successor whose in-degree reaches exactly 0.
    (For inputs where a successor is missing from `indeg` — impossible for a
    validly built graph, where every successor was given an `indeg` entry when
    its incoming edge was scanned — the JS arithmetic on `undefined` yields
    `NaN`, which is never `=== 0`; `getD 0` likewise never enqueues there.) -/
def processSuccs : List String → List (String × Int) → List String →
    List (String × Int) × List String
  | [], indeg, q => (indeg, q)
  | nxt :: rest, indeg, q =>
    let d := (mapGet indeg nxt).getD 0 - 1
    let indeg1 := mapSet indeg nxt d
    let q1 := if d = 0 then q ++ [nxt] else q
    processSuccs rest indeg1 q1

/-- Termination measure for the Kahn loop: queue length plus the sum of the
    positive parts of the recorded in-degrees. -/
def indegWeight (indeg : List (String × Int)) : Nat :=
  (indeg.map (fun p => p.2.toNat)).sum

/-- The `while (q.length)` loop of `topoSort`: dequeue from the front
    (`q.shift()`), append to `order`, then process the dequeued node's
    successors. -/
def kahnLoop (out : List (String × List String)) :
    List (String × Int) → List String → List String → List String
  | _, [], order => order
  | indeg, id :: q1, order =>
    let succs := (mapGet out id).getD []
    let step := processSuccs succs indeg q1
    kahnLoop out step.1 step.2 (order ++ [id])
termination_by indeg q _ => q.length + indegWeight indeg
decreasing_by
  simp only [List.length_cons]
  have hmw : ∀ (l : List (String × Int)) (k : String) (v : Int),
      indegWeight (mapSet l k v) + ((mapGet l k).getD 0).toNat
        = indegWeight l + v.toNat := by
    intro l k v
    induction l with
    | nil => simp [mapSet, mapGet, indegWeight]
    | cons hd tl ih =>
      obtain ⟨k0, v0⟩ := hd
      by_cases h : k0 = k
      · simp [mapSet, mapGet, h, indegWeight]
        omega
      · simp only [mapSet, mapGet, h, if_false, indegWeight, List.map_cons,
          List.sum_cons]
        simp only [indegWeight] at ih
        omega
  have hmeas : ∀ (ss : List String) (ind : List (String × Int)) (qq : List String),
      (processSuccs ss ind qq).2.length + indegWeight (processSuccs ss ind qq).1
        ≤ qq.length + indegWeight ind := by
    intro ss
    induction ss with
    | nil => intro ind qq; simp [processSuccs]
    | cons nxt rest ih =>
      intro ind qq
      simp only [processSuccs]
      set old := (mapGet ind nxt).getD 0 with hold
      set d := old - 1
      have hset := hmw ind nxt d
      rw [← hold] at hset
      have hstep := ih (mapSet ind nxt d) (if d = 0 then qq ++ [nxt] else qq)
      refine le_trans hstep ?_
      by_cases h0 : d = 0
      · rw [if_pos h0]
        simp only [List.length_append, List.length_singleton]
        omega
      · rw [if_neg h0]
        omega
  have := hmeas ((mapGet out id).getD []) indeg q1
  omega

/-- Fuel-counted twin of `kahnLoop`, identical on sufficient fuel (proved in
    `kahnLoopFuel_eq`): structural recursion lets concrete runs be evaluated
    by `decide`. -/
def kahnLoopFuel (out : List (String × List String)) :
    Nat → List (String × Int) → List String → List String → List String
  | _, _, [], order => order
  | 0, _, _ :: _, order => order
  | fuel + 1, indeg, id :: q1, order =>
    let succs := (mapGet out id).getD []
    let step := processSuccs succs indeg q1
    kahnLoopFuel out fuel step.1 step.2 (order ++ [id])

/-- `topoSort()` (JS lines 79–110), parameterised by the node id list
    (`this.data.nodes`, read through `n.id`) and the derived edge list
    (`this.edges`). The JS builds `indeg` and `out` in one pass over nodes and
    one pass over edges; the two maps never read each other, so they are built
    by separate folds of the same passes here. For an edge whose `from` is not
    a node id the JS `out.get(e.from).push(...)` throws a `TypeError`; that can
    only happen for graphs that were never validly loaded, and is modelled as
    inserting a fresh `out` entry (never exercised by the theorems below, whose
    hypotheses give validly loaded graphs). -/
def topoSort (nodes : List String) (edges : List Edge) : TopoResult :=
  let indeg := edges.foldl
    (fun m e => mapSet m e.toId ((mapGet m e.toId).getD 0 + 1))
    (nodes.foldl (fun m id => mapSet m id 0) [])
  let out := edges.foldl
    (fun m e => mapSet m e.fromId ((mapGet m e.fromId).getD [] ++ [e.toId]))
    (nodes.foldl (fun m id => mapSet m id []) [])
  let q := (indeg.filter (fun p => p.2 = 0)).map Prod.fst
  let order := kahnLoop out indeg q []
  if order.length ≠ nodes.length then ⟨false, []⟩ else ⟨true, order⟩

/-- A position record `{x, y}` (JS `this.positions` values). Coordinates are
    JS numbers doing exact-form arithmetic here, modelled as rationals. -/
structure Pos where
  x : Rat
  y : Rat
deriving DecidableEq, Repr

/-- The CSS-derived layout constants read in the constructor
    (`--node-w`, `--node-h`, `--gap-x`, `--gap-y`). -/
structure Config where
  NODE_W : Rat
  NODE_H : Rat
  GAP_X : Rat
  GAP_Y : Rat
deriving DecidableEq, Repr

/-- The mutable fields of a `WorkflowGraph` instance that the core
    (load / sort / layout) reads or writes. `log` models the text lines
    appended to `logEl`. -/
structure WorkflowState where
  data : RawWorkflow
  byId : List (String × RawNode)
  edges : List Edge
  positions : List (String × Pos)
  dragged : List String
  log : List String
deriving DecidableEq, Repr

/-- The JS guard `!n.id.trim()`: the id trims to the empty string, i.e. every
    character is whitespace. Stated over the character list (equivalent to
    `String.trim` returning `""`, whose byte-position recursion the kernel
    cannot evaluate) so that concrete loads reduce. -/
def trimsEmpty (s : String) : Bool := s.toList.all Char.isWhitespace

/-- First loop of `_validateAndBuildGraph` (JS lines 57–65): scan the raw nodes,
    rejecting a falsy node, a missing/non-string id, an id that trims to empty,
    and a duplicate id; otherwise record the node in `byId`. On a rejection the
    `byId` built so far is returned together with the thrown message, exactly as
    the JS object keeps its partially filled `this.byId`. -/
def scanNodes : List (Option RawNode) → List (String × RawNode) →
    List (String × RawNode) × Option String
  | [], byId => (byId, none)
  | n :: rest, byId =>
    match n with
    | none => (byId, some "Each node must have a non-empty string id.")
    | some node =>
      match node.id with
      | none => (byId, some "Each node must have a non-empty string id.")
      | some id =>
        if trimsEmpty id then (byId, some "Each node must have a non-empty string id.")
        else if (mapGet byId id).isSome then (byId, some ("Duplicate node id: " ++ id))
        else scanNodes rest (mapSet byId id node)

/-- Inner loop of the second pass of `_validateAndBuildGraph` (JS lines 69–75):
    walk one node's `depends_on`, resolving each entry against `byId` and
    pushing the derived edge, or stopping with the thrown message (the edges
    pushed before the failure are kept, as in the JS `this.edges`). -/
def buildNodeEdges (byId : List (String × RawNode)) (nid : String) :
    List (Option RawDep) → List Edge → List Edge × Option String
  | [], edges => (edges, none)
  | dep :: rest, edges =>
    let depId : Option String :=
      match dep with
      | some d => d.node_id
      | none => none
    match depId with
    | none => (edges, some ("Node \"" ++ nid ++ "\" depends_on unknown node \"null\"."))
    | some s =>
      if (mapGet byId s).isSome then
        buildNodeEdges byId nid rest (edges ++ [Edge.mk s nid])
      else
        (edges, some ("Node \"" ++ nid ++ "\" depends_on unknown node \"" ++ s ++ "\"."))

/-- Outer loop of the second pass of `_validateAndBuildGraph` (JS lines 67–76).
    This pass only runs after the first pass accepted every node, so each list
    entry is a real node with a string id; the `getD` defaults are never read
    in any validly reachable call. -/
def buildEdges (byId : List (String × RawNode)) :
    List (Option RawNode) → List Edge → List Edge × Option String
  | [], edges => (edges, none)
  | n :: rest, edges =>
    let node := n.getD ⟨none, []⟩
    let step := buildNodeEdges byId (node.id.getD "") node.depends_on edges
    match step.2 with
    | some m => (step.1, some m)
    | none => buildEdges byId rest step.1

/-- `_validateAndBuildGraph()` (JS lines 52–77): clear `byId` and `edges`, scan
    nodes, then build edges. Returns the resulting `byId`, `edges`, and the
    thrown message (if any); on a first-pass failure the edge list is the
    freshly cleared `[]`. -/
def _validateAndBuildGraph (d : RawWorkflow) :
    List (String × RawNode) × List Edge × Option String :=
  let nodes := d.nodes.getD []
  let scan := scanNodes nodes []
  match scan.2 with
  | some m => (scan.1, [], some m)
  | none =>
    let build := buildEdges scan.1 nodes []
    (scan.1, build.1, build.2)

/-- `setData(workflow)` (JS lines 47–50): replace `this.data` (falling back to
    `{nodes: []}` for a falsy/non-object argument), then validate and build.
    The second component is the message of the propagated exception, if the
    validation threw; the returned state holds every mutation made before the
    throw. -/
def setData (st : WorkflowState) (workflow : Option RawWorkflow) :
    WorkflowState × Option String :=
  let d := match workflow with
    | some wf => wf
    | none => ⟨some []⟩
  let v := _validateAndBuildGraph d
  ({ st with data := d, byId := v.1, edges := v.2.1 }, v.2.2)

/-- The id list read by the `for (const n of nodes)` loops of `topoSort` and
    `_ensurePositionsForMissing` through `n.id`; for a validly loaded graph
    every entry is a node with a string id and this is exactly the declared
    id sequence. -/
def idsOf (d : RawWorkflow) : List String :=
  (d.nodes.getD []).filterMap (fun n => n.bind (fun node => node.id))

/-- One `depends_on` entry's contribution to `_computeDepths`:
    `depth.get(dep.node_id) || 0`. A `none` id reads `depth.get(undefined)`,
    which is `undefined || 0 = 0`; a `none` entry would make the JS throw and
    is unreachable for loaded graphs. -/
def depDepth (depth : List (String × Nat)) (dep : Option RawDep) : Nat :=
  match dep with
  | some dd =>
    match dd.node_id with
    | some s => (mapGet depth s).getD 0
    | none => 0
  | none => 0

/-- The per-node body of the `_computeDepths` forward pass:
    `d = max over deps of (depth.get(dep.node_id) || 0) + 1`, starting at 0. -/
def depthStep (m : List (String × Nat)) (node : RawNode) : Nat :=
  node.depends_on.foldl (fun a dep => max a (depDepth m dep + 1)) 0

/-- `_computeDepths(order)` (JS lines 112–126): zero every id of `order`, then
    a single forward pass setting each id's depth to
    `max over deps of (depth.get(dep.node_id) || 0) + 1` (0 when there are no
    deps). The `byId` lookup default is never read when `order` lists loaded
    node ids. -/
def _computeDepths (byId : List (String × RawNode)) (order : List String) :
    List (String × Nat) :=
  let depth0 := order.foldl (fun m id => mapSet m id 0) []
  order.foldl (fun m id =>
    mapSet m id (depthStep m ((mapGet byId id).getD ⟨none, []⟩))) depth0

/-- The layer-grouping loop of `relayout` (JS lines 140–147): a map from depth
    to the ids at that depth in `order` order, together with `maxDepth`. -/
def buildLayers (depth : List (String × Nat)) (order : List String) :
    List (Nat × List String) × Nat :=
  order.foldl (fun acc id =>
    let d := (mapGet depth id).getD 0
    (mapSet acc.1 d ((mapGet acc.1 d).getD [] ++ [id]), max acc.2 d)) ([], 0)

/-- The `positions.set` calls issued by the nested layer loop of `relayout`
    (JS lines 155–170), in program order: for each depth `0..maxDepth`, for each
    id of that layer in order (skipping pinned ids unless this is a full reset),
    the centered coordinate pair. An empty layer contributes nothing, matching
    the `if (count === 0) continue`. -/
def layerWrites (cfg : Config) (w : Rat) (layers : List (Nat × List String))
    (maxDepth : Nat) (dragged : List String) (resetDragged : Bool) :
    List (String × Pos) :=
  (List.range (maxDepth + 1)).flatMap (fun d =>
    let ids := (mapGet layers d).getD []
    let count := ids.length
    let totalW := (count : Rat) * cfg.NODE_W + ((count : Rat) - 1) * cfg.GAP_X
    let startX := max 40 ((w - totalW) / 2)
    ids.enum.filterMap (fun p =>
      if resetDragged = false ∧ p.2 ∈ dragged then none
      else some (p.2, ⟨startX + (p.1 : Rat) * (cfg.NODE_W + cfg.GAP_X),
                       60 + (d : Rat) * (cfg.NODE_H + cfg.GAP_Y)⟩)))

/-- Replay a list of `positions.set(id, pos)` calls on a position table. -/
def applyWrites (ps : List (String × Pos)) (writes : List (String × Pos)) :
    List (String × Pos) :=
  writes.foldl (fun m kv => mapSet m kv.1 kv.2) ps

/-- The placement loop of `_ensurePositionsForMissing` over the collected
    `missing` ids, carrying the position table and the running `x` cursor:
    place at `y = 40`, advance by `NODE_W + 20`, wrap back to `x = 40` when the
    next node would cross `w - 40`. -/
def ensureFold (cfg : Config) (w : Rat) :
    List String → List (String × Pos) × Rat → List (String × Pos) × Rat
  | [], acc => acc
  | id :: rest, acc =>
    let x := if acc.2 + cfg.NODE_W > w - 40 then 40 else acc.2
    ensureFold cfg w rest (mapSet acc.1 id ⟨x, 40⟩, x + cfg.NODE_W + 20)

/-- `_ensurePositionsForMissing()` (JS lines 175–193): collect the node ids
    without a position, then run the placement loop starting at `x = 40`. The
    JS early return on an empty `missing` coincides with folding over the empty
    list. -/
def _ensurePositionsForMissing (cfg : Config) (nodeIds : List String) (w : Rat)
    (ps : List (String × Pos)) : List (String × Pos) :=
  let missing := nodeIds.filter (fun id => (mapGet ps id).isNone)
  (ensureFold cfg w missing (ps, (40 : Rat))).1

/-- `relayout({resetDragged})` (JS lines 128–173), with the viewport width
    `this.stage.clientWidth` passed as `w`. Clears the dragged set up front on
    a full reset; on a cycle, logs and returns; otherwise computes depths,
    groups layers, clears positions on a full reset, replays the layer writes,
    and finally fills in positions for any node still missing one. -/
def relayout (cfg : Config) (st : WorkflowState) (resetDragged : Bool) (w : Rat) :
    WorkflowState :=
  let st1 := if resetDragged then { st with dragged := [] } else st
  let res := topoSort (idsOf st.data) st.edges
  if res.ok then
    let depth := _computeDepths st.byId res.order
    let bl := buildLayers depth res.order
    let ps0 := if resetDragged then [] else st.positions
    let ps1 := applyWrites ps0 (layerWrites cfg w bl.1 bl.2 st1.dragged resetDragged)
    { st1 with positions := _ensurePositionsForMissing cfg (idsOf st.data) w ps1 }
  else
    { st1 with
      log := st1.log ++
        ["ERROR: cycle detected; layout based on dependencies is not possible."] }

/-! ### Semantic view of the Kahn data -/

/-- The edge relation of a derived edge list. -/
def edgeRel (edges : List Edge) (a b : String) : Prop := Edge.mk a b ∈ edges

/-- Number of edges into `x` whose source is not in `order` yet. -/
def remIndeg (edges : List Edge) (order : List String) (x : String) : Int :=
  (edges.countP (fun e => decide (e.toId = x ∧ e.fromId ∉ order)) : Int)

/-- Number of edges from `u` to `x`. -/
def cntEdge (edges : List Edge) (u x : String) : Int :=
  (edges.countP (fun e => decide (e.fromId = u ∧ e.toId = x)) : Int)

/-- The successor list recorded in `out` for node `u`: the targets of the edges
    leaving `u`, in edge order. -/
def outList (edges : List Edge) (u : String) : List String :=
  (edges.filter (fun e => e.fromId = u)).map Edge.toId

/-- An in-degree table whose entries follow the node list. -/
def shapeInt (nodes : List String) (F : String → Int) : List (String × Int) :=
  nodes.map fun a => (a, F a)

/-- The fully built `out` table. -/
def outShape (nodes : List String) (edges : List Edge) : List (String × List String) :=
  nodes.map fun a => (a, outList edges a)

/-- Loop invariant of the Kahn `while` loop: `F` is the semantic in-degree
    table (edges whose source is still unprocessed), `q` holds exactly the
    unprocessed nodes of remaining in-degree 0, and the processed prefix
    `order` already respects every edge between processed nodes. -/
structure KahnInv (nodes : List String) (edges : List Edge)
    (F : String → Int) (q order : List String) : Prop where
  nodup : (order ++ q).Nodup
  subN : ∀ x, x ∈ order ++ q → x ∈ nodes
  count : ∀ x ∈ nodes, F x = remIndeg edges order x
  queue : ∀ x ∈ nodes, ((F x = 0 ∧ x ∉ order) ↔ x ∈ q)
  edgeOrd : ∀ e ∈ edges, e.toId ∈ order →
    e.fromId ∈ order ∧ order.indexOf e.fromId < order.indexOf e.toId

/-- Iterated predecessor choice, used in the pigeonhole cycle argument. -/
def predSeq {α : Type} (start : α) (f : α → α) : Nat → α
  | 0 => start
  | n + 1 => f (predSeq start f n)

/-- The `(id, node)` pairs a successful first validation pass records, in
    declaration order. -/
def nodePairs (l : List (Option RawNode)) : List (String × RawNode) :=
  l.filterMap (fun n => n.bind (fun node => node.id.map (fun i => (i, node))))

/-- The declared node ids of a raw node list. -/
def rawIds (l : List (Option RawNode)) : List String :=
  l.filterMap (fun n => n.bind (fun node => node.id))

/-- Every raw entry is a node with a string id that does not trim to empty. -/
def allValid (l : List (Option RawNode)) : Prop :=
  ∀ n ∈ l, ∃ node i, n = some node ∧ node.id = some i ∧ trimsEmpty i = false

/-- The resolved dependency ids of a node, in declaration order. -/
def depIds (n : RawNode) : List String :=
  n.depends_on.filterMap (fun dep => dep.bind (fun d => d.node_id))

/-- Every dependency entry of `n` is a record with a string id resolving in
    `byId`. -/
def depsWf (byId : List (String × RawNode)) (n : RawNode) : Prop :=
  ∀ dep ∈ n.depends_on, ∃ d s, dep = some d ∧ d.node_id = some s ∧ (mapGet byId s).isSome

/-- The edge list a fully successful load derives: one edge per resolved
    dependency reference, grouped by declaring node. -/
def edgesOf (l : List (Option RawNode)) : List Edge :=
  (nodePairs l).flatMap (fun p => (depIds p.2).map (fun s => Edge.mk s p.1))

/-- The layer-pass write list `relayout` issues for a given state: computed
    from the graph fields and the dragged set only. -/
def layoutWrites (cfg : Config) (st : WorkflowState) (r : Bool) (w : Rat) :
    List (String × Pos) :=
  let res := topoSort (idsOf st.data) st.edges
  let depth := _computeDepths st.byId res.order
  let bl := buildLayers depth res.order
  layerWrites cfg w bl.1 bl.2 (if r then [] else st.dragged) r

/-! ### Concrete fixtures for witnesses and counterexamples -/

/-- A sample configuration (the CSS constants of the demo stylesheet). -/
def exCfg : Config := ⟨100, 50, 30, 40⟩

/-- A freshly constructed instance: empty graph, no positions, no pins. -/
def exEmpty : WorkflowState := ⟨⟨some []⟩, [], [], [], [], []⟩

/-- The diamond workflow of the spec's end-to-end example:
    `a`, `b ← a`, `c ← a`, `d ← b, c`. -/
def exDiamond : RawWorkflow :=
  ⟨some [some ⟨some "a", []⟩,
         some ⟨some "b", [some ⟨some "a"⟩]⟩,
         some ⟨some "c", [some ⟨some "a"⟩]⟩,
         some ⟨some "d", [some ⟨some "b"⟩, some ⟨some "c"⟩]⟩]⟩

def exDiamondSt : WorkflowState := (setData exEmpty (some exDiamond)).1

/-- The diamond state with node `b` dragged to `(7, 8)`. -/
def exPinned : WorkflowState :=
  { exDiamondSt with positions := [("b", ⟨7, 8⟩)], dragged := ["b"] }

/-- A two-node cyclic workflow: `a ← b`, `b ← a`. -/
def exCyc : RawWorkflow :=
  ⟨some [some ⟨some "a", [some ⟨some "b"⟩]⟩,
         some ⟨some "b", [some ⟨some "a"⟩]⟩]⟩

/-- The cyclic state with node `a` positioned at `(5, 6)` and pinned. -/
def exCycSt : WorkflowState :=
  { (setData exEmpty (some exCyc)).1 with positions := [("a", ⟨5, 6⟩)], dragged := ["a"] }

/-- A workflow whose single node depends on itself. -/
def exSelf : RawWorkflow := ⟨some [some ⟨some "s", [some ⟨some "s"⟩]⟩]⟩

/-- A workflow with a duplicated node id. -/
def exDup : RawWorkflow := ⟨some [some ⟨some "x", []⟩, some ⟨some "x", []⟩]⟩

/-! ### Theorems -/

theorem indegWeight_mapSet (l : List (String × Int)) (k : String) (v : Int) :
    indegWeight (mapSet l k v) + ((mapGet l k).getD 0).toNat
      = indegWeight l + v.toNat := by
  induction l with
  | nil => simp [mapSet, mapGet, indegWeight]
  | cons hd tl ih =>
    obtain ⟨k0, v0⟩ := hd
    by_cases h : k0 = k
    · simp [mapSet, mapGet, h, indegWeight]
      omega
    · simp only [mapSet, mapGet, h, if_false, indegWeight, List.map_cons, List.sum_cons]
      simp only [indegWeight] at ih
      omega

theorem processSuccs_measure (succs : List String) :
    ∀ (indeg : List (String × Int)) (q : List String),
      (processSuccs succs indeg q).2.length + indegWeight (processSuccs succs indeg q).1
        ≤ q.length + indegWeight indeg := by
  induction succs with
  | nil => intro indeg q; simp [processSuccs]
  | cons nxt rest ih =>
    intro indeg q
    simp only [processSuccs]
    set old := (mapGet indeg nxt).getD 0 with hold
    set d := old - 1 with hd
    have hset := indegWeight_mapSet indeg nxt d
    rw [← hold] at hset
    have hstep := ih (mapSet indeg nxt d) (if d = 0 then q ++ [nxt] else q)
    refine le_trans hstep ?_
    by_cases h0 : d = 0
    · rw [if_pos h0]
      simp only [List.length_append, List.length_singleton]
      omega
    · rw [if_neg h0]
      omega

/-! ### Generic association-map lemmas -/

theorem mapGet_mapSet {α β : Type} [DecidableEq α] (m : List (α × β)) (k x : α) (v : β) :
    mapGet (mapSet m k v) x = if k = x then some v else mapGet m x := by
  induction m with
  | nil => by_cases h : k = x <;> simp [mapSet, mapGet, h]
  | cons hd tl ih =>
    obtain ⟨k0, v0⟩ := hd
    by_cases h0 : k0 = k
    · subst h0
      by_cases h : k0 = x <;> simp [mapSet, mapGet, h]
    · by_cases h : k0 = x
      · subst h
        have hkx : ¬ k = k0 := fun he => h0 he.symm
        simp [mapSet, mapGet, h0, hkx]
      · simp [mapSet, mapGet, h0, h, ih]

theorem mapSet_of_get_none {α β : Type} [DecidableEq α] (m : List (α × β)) (k : α) (v : β)
    (h : mapGet m k = none) : mapSet m k v = m ++ [(k, v)] := by
  induction m with
  | nil => simp [mapSet]
  | cons hd tl ih =>
    obtain ⟨k0, v0⟩ := hd
    by_cases h0 : k0 = k
    · subst h0; simp [mapGet] at h
    · simp only [mapGet, h0, if_false] at h
      simp [mapSet, h0, ih h]

/-- Lookup in a map of the shape `keys.map (fun a => (a, f a))`. -/
theorem mapGet_shape {α β : Type} [DecidableEq α] (keys : List α) (f : α → β) (x : α) :
    mapGet (keys.map fun a => (a, f a)) x = if x ∈ keys then some (f x) else none := by
  induction keys with
  | nil => simp [mapGet]
  | cons hd tl ih =>
    by_cases h : hd = x
    · subst h; simp [mapGet]
    · have hx : ¬ x = hd := fun he => h he.symm
      simp [mapGet, h, ih, hx]

/-- Updating a duplicate-free shaped map stays shaped. -/
theorem mapSet_shape {α β : Type} [DecidableEq α] (keys : List α) (hnd : keys.Nodup)
    (f : α → β) (k : α) (hk : k ∈ keys) (v : β) :
    mapSet (keys.map fun a => (a, f a)) k v
      = keys.map fun a => (a, if a = k then v else f a) := by
  induction keys with
  | nil => simp at hk
  | cons hd tl ih =>
    rcases List.nodup_cons.mp hnd with ⟨hhd, htl⟩
    by_cases h : hd = k
    · subst h
      simp only [List.map_cons, mapSet, if_pos rfl, if_pos]
      congr 1
      refine (List.map_congr_left ?_).symm
      intro a ha
      have : a ≠ hd := fun he => hhd (he ▸ ha)
      simp [this]
    · have hk' : k ∈ tl := by
        rcases List.mem_cons.mp hk with h1 | h1
        · exact absurd h1.symm h
        · exact h1
      simp only [List.map_cons, mapSet, if_neg h]
      rw [ih htl hk']

theorem mapGet_of_append_none {α β : Type} [DecidableEq α] (l1 l2 : List (α × β)) (x : α)
    (h : mapGet l1 x = none) : mapGet (l1 ++ l2) x = mapGet l2 x := by
  induction l1 with
  | nil => simp
  | cons hd tl ih =>
    obtain ⟨k0, v0⟩ := hd
    by_cases h0 : k0 = x
    · subst h0; simp [mapGet] at h
    · simp only [mapGet, h0, if_false] at h
      simp only [List.cons_append, mapGet, h0, if_false]
      exact ih h

/-- Folding a constant-value `mapSet` over fresh, duplicate-free keys appends
    one entry per key. -/
theorem foldl_mapSet_const {α β : Type} [DecidableEq α] (c : β) :
    ∀ (keys : List α) (acc : List (α × β)), keys.Nodup →
      (∀ k ∈ keys, mapGet acc k = none) →
      keys.foldl (fun m id => mapSet m id c) acc = acc ++ keys.map (fun a => (a, c)) := by
  intro keys
  induction keys with
  | nil => intro acc _ _; simp
  | cons hd tl ih =>
    intro acc hnd hfresh
    rcases List.nodup_cons.mp hnd with ⟨hhd, htl⟩
    have h1 : mapSet acc hd c = acc ++ [(hd, c)] :=
      mapSet_of_get_none acc hd c (hfresh hd (List.mem_cons_self hd tl))
    simp only [List.foldl_cons, h1]
    rw [ih (acc ++ [(hd, c)]) htl ?_]
    · simp
    · intro k hk
      have hk2 : ¬ hd = k := fun he => hhd (he ▸ hk)
      rw [mapGet_of_append_none acc [(hd, c)] k (hfresh k (List.mem_cons_of_mem hd hk))]
      simp [mapGet, hk2]

theorem remIndeg_nonneg (edges : List Edge) (order : List String) (x : String) :
    0 ≤ remIndeg edges order x := Int.ofNat_nonneg _

theorem remIndeg_nil (edges : List Edge) (x : String) :
    remIndeg edges [] x = (edges.countP (fun e => decide (e.toId = x)) : Int) := by
  unfold remIndeg
  congr 1
  apply List.countP_congr
  intro e _
  simp

theorem indeg_build (nodes : List String) (hnd : nodes.Nodup) :
    ∀ (edges : List Edge) (F : String → Int), (∀ e ∈ edges, e.toId ∈ nodes) →
      edges.foldl (fun m e => mapSet m e.toId ((mapGet m e.toId).getD 0 + 1))
          (shapeInt nodes F)
        = shapeInt nodes
            (fun a => F a + (edges.countP (fun e => decide (e.toId = a)) : Int)) := by
  intro edges
  induction edges with
  | nil =>
    intro F _
    simp [shapeInt]
  | cons e rest ih =>
    intro F hcl
    have hto : e.toId ∈ nodes := hcl e (List.mem_cons_self e rest)
    simp only [List.foldl_cons]
    rw [show shapeInt nodes F = nodes.map fun a => (a, F a) from rfl,
      mapGet_shape nodes F e.toId, if_pos hto, Option.getD_some,
      mapSet_shape nodes hnd F e.toId hto (F e.toId + 1),
      show (nodes.map fun a => (a, if a = e.toId then F e.toId + 1 else F a))
          = shapeInt nodes (fun a => if a = e.toId then F e.toId + 1 else F a) from rfl,
      ih _ (fun e1 he1 => hcl e1 (List.mem_cons_of_mem e he1))]
    unfold shapeInt
    refine List.map_congr_left ?_
    intro a _
    refine congrArg _ ?_
    by_cases ha : a = e.toId
    · subst ha
      simp only [List.countP_cons, decide_eq_true_eq, eq_self_iff_true, if_true]
      push_cast
      omega
    · have hda : ¬ e.toId = a := fun he => ha he.symm
      simp only [List.countP_cons, decide_eq_true_eq]
      rw [if_neg ha, if_neg hda]
      push_cast
      omega

theorem out_build (nodes : List String) (hnd : nodes.Nodup) :
    ∀ (edges : List Edge) (G : String → List String),
      (∀ e ∈ edges, e.fromId ∈ nodes) →
      edges.foldl (fun m e => mapSet m e.fromId ((mapGet m e.fromId).getD [] ++ [e.toId]))
          (nodes.map fun a => (a, G a))
        = nodes.map fun a => (a, G a ++ outList edges a) := by
  intro edges
  induction edges with
  | nil =>
    intro G _
    simp [outList]
  | cons e rest ih =>
    intro G hcl
    have hfr : e.fromId ∈ nodes := hcl e (List.mem_cons_self e rest)
    simp only [List.foldl_cons]
    rw [mapGet_shape nodes G e.fromId, if_pos hfr, Option.getD_some,
      mapSet_shape nodes hnd G e.fromId hfr (G e.fromId ++ [e.toId]),
      ih _ (fun e1 he1 => hcl e1 (List.mem_cons_of_mem e he1))]
    refine List.map_congr_left ?_
    intro a _
    by_cases ha : a = e.fromId
    · have hda : e.fromId = a := ha.symm
      simp [outList, List.filter_cons, if_pos ha, hda]
    · have hda : ¬ e.fromId = a := fun he => ha he.symm
      simp [outList, List.filter_cons, if_neg ha, hda]

theorem seed_queue (nodes : List String) (F : String → Int) :
    ((shapeInt nodes F).filter (fun p => p.2 = 0)).map Prod.fst
      = nodes.filter (fun a => F a = 0) := by
  induction nodes with
  | nil => simp [shapeInt]
  | cons hd tl ih =>
    by_cases h0 : F hd = 0
    · simp only [shapeInt, List.map_cons, List.filter_cons] at ih ⊢
      simp [h0, ih]
    · simp only [shapeInt, List.map_cons, List.filter_cons] at ih ⊢
      simp [h0, ih]

theorem shapeInt_get (nodes : List String) (F : String → Int) (x : String) :
    mapGet (shapeInt nodes F) x = if x ∈ nodes then some (F x) else none :=
  mapGet_shape nodes F x

theorem shapeInt_set (nodes : List String) (hnd : nodes.Nodup) (F : String → Int)
    (k : String) (hk : k ∈ nodes) (v : Int) :
    mapSet (shapeInt nodes F) k v = shapeInt nodes (fun a => if a = k then v else F a) :=
  mapSet_shape nodes hnd F k hk v

theorem shapeInt_congr (nodes : List String) (F G : String → Int)
    (h : ∀ a, F a = G a) : shapeInt nodes F = shapeInt nodes G := by
  unfold shapeInt
  exact List.map_congr_left (fun a _ => by rw [h a])

theorem outList_cons (e : Edge) (rest : List Edge) (u : String) :
    outList (e :: rest) u
      = if e.fromId = u then e.toId :: outList rest u else outList rest u := by
  by_cases hf : e.fromId = u <;> simp [outList, List.filter_cons, hf]

theorem mem_outList (edges : List Edge) (u x : String) :
    x ∈ outList edges u ↔ ∃ e ∈ edges, e.fromId = u ∧ e.toId = x := by
  unfold outList
  simp only [List.mem_map, List.mem_filter, decide_eq_true_eq]
  constructor
  · rintro ⟨e, ⟨he, hf⟩, ht⟩
    exact ⟨e, he, hf, ht⟩
  · rintro ⟨e, he, hf, ht⟩
    exact ⟨e, ⟨he, hf⟩, ht⟩

theorem cntEdge_cons (e : Edge) (rest : List Edge) (u x : String) :
    cntEdge (e :: rest) u x
      = cntEdge rest u x + if e.fromId = u ∧ e.toId = x then 1 else 0 := by
  by_cases h : e.fromId = u ∧ e.toId = x <;>
    simp [cntEdge, List.countP_cons, h]

theorem cntEdge_nonneg (edges : List Edge) (u x : String) : 0 ≤ cntEdge edges u x :=
  Int.ofNat_nonneg _

theorem remIndeg_cons (e : Edge) (rest : List Edge) (order : List String) (x : String) :
    remIndeg (e :: rest) order x
      = remIndeg rest order x + if e.toId = x ∧ e.fromId ∉ order then 1 else 0 := by
  by_cases h : e.toId = x ∧ e.fromId ∉ order <;>
    simp [remIndeg, List.countP_cons, h]

theorem count_outList (u x : String) :
    ∀ edges : List Edge, ((outList edges u).count x : Int) = cntEdge edges u x := by
  intro edges
  induction edges with
  | nil => simp [outList, cntEdge]
  | cons e rest ih =>
    rw [outList_cons, cntEdge_cons, ← ih]
    by_cases hf : e.fromId = u
    · by_cases ht : e.toId = x
      · rw [if_pos hf, if_pos ⟨hf, ht⟩, ht, List.count_cons_self]
        push_cast
        omega
      · have hxt : x ≠ e.toId := fun he => ht he.symm
        rw [if_pos hf, if_neg (fun hc => ht hc.2), List.count_cons_of_ne hxt]
        omega
    · rw [if_neg hf, if_neg (fun hc => hf hc.1)]
      omega

theorem remIndeg_append (edges : List Edge) (order : List String) (u x : String)
    (hu : u ∉ order) :
    remIndeg edges (order ++ [u]) x = remIndeg edges order x - cntEdge edges u x := by
  induction edges with
  | nil => simp [remIndeg, cntEdge]
  | cons e rest ih =>
    rw [remIndeg_cons, remIndeg_cons, cntEdge_cons, ih]
    by_cases ht : e.toId = x
    · by_cases hf : e.fromId = u
      · have h1 : ¬ (e.toId = x ∧ e.fromId ∉ order ++ [u]) := by
          rintro ⟨-, hmem⟩
          exact hmem (by simp [hf])
        have h2 : e.fromId ∉ order := hf ▸ hu
        rw [if_neg h1, if_pos ⟨ht, h2⟩, if_pos ⟨hf, ht⟩]
        omega
      · have hiff : e.fromId ∈ order ++ [u] ↔ e.fromId ∈ order := by
          simp [List.mem_append, hf]
        by_cases hmem : e.fromId ∈ order
        · rw [if_neg (fun hc => hc.2 (hiff.mpr hmem)), if_neg (fun hc => hc.2 hmem),
            if_neg (fun hc => hf hc.1)]
          omega
        · rw [if_pos ⟨ht, fun hc => hmem (hiff.mp hc)⟩, if_pos ⟨ht, hmem⟩,
            if_neg (fun hc => hf hc.1)]
          omega
    · rw [if_neg (fun hc => ht hc.1), if_neg (fun hc => ht hc.1),
        if_neg (fun hc => ht hc.2)]
      omega

/-- Net effect of the successor-processing loop on a shaped in-degree table:
    every successor's entry is decremented once per occurrence, and exactly the
    ids whose in-degree passes through 0 are appended to the queue, each once. -/
theorem processSuccs_spec (nodes : List String) (hnd : nodes.Nodup) :
    ∀ (succs : List String) (F : String → Int) (q : List String),
      (∀ x ∈ succs, x ∈ nodes) →
      ∃ app : List String,
        processSuccs succs (shapeInt nodes F) q
            = (shapeInt nodes (fun a => F a - (succs.count a : Int)), q ++ app) ∧
          app.Nodup ∧
          (∀ x, x ∈ app ↔ 1 ≤ F x ∧ F x ≤ (succs.count x : Int)) := by
  intro succs
  induction succs with
  | nil =>
    intro F q _
    refine ⟨[], ?_, List.nodup_nil, ?_⟩
    · simp only [processSuccs, List.append_nil]
      refine congrArg₂ Prod.mk ?_ rfl
      exact shapeInt_congr nodes F _ (fun a => by simp)
    · intro x
      simp only [List.not_mem_nil, List.count_nil, Nat.cast_zero, false_iff]
      omega
  | cons nxt rest ih =>
    intro F q hsub
    have hn : nxt ∈ nodes := hsub nxt (List.mem_cons_self nxt rest)
    simp only [processSuccs, shapeInt_get, if_pos hn, Option.getD_some,
      shapeInt_set nodes hnd F nxt hn]
    obtain ⟨app1, heq, hnd1, hchar⟩ :=
      ih (fun a => if a = nxt then F nxt - 1 else F a)
        (if F nxt - 1 = 0 then q ++ [nxt] else q)
        (fun x hx => hsub x (List.mem_cons_of_mem nxt hx))
    rw [heq]
    refine ⟨(if F nxt = 1 then [nxt] else []) ++ app1, ?_, ?_, ?_⟩
    · refine congrArg₂ Prod.mk ?_ ?_
      · refine shapeInt_congr nodes _ _ ?_
        intro a
        by_cases ha : a = nxt
        · subst ha
          rw [if_pos rfl, List.count_cons_self]
          push_cast
          omega
        · have ha2 : a ≠ nxt := ha
          rw [if_neg ha, List.count_cons_of_ne ha2]
      · by_cases h1 : F nxt = 1
        · rw [if_pos (show F nxt - 1 = 0 by omega), if_pos h1, List.append_assoc]
        · rw [if_neg (show ¬ F nxt - 1 = 0 by omega), if_neg h1]
          simp
    · by_cases h1 : F nxt = 1
      · rw [if_pos h1]
        refine List.nodup_cons.mpr ⟨?_, hnd1⟩
        intro hmem
        have := (hchar nxt).mp hmem
        rw [if_pos rfl] at this
        omega
      · rw [if_neg h1]
        simpa using hnd1
    · intro x
      by_cases hx : x = nxt
      · subst hx
        rw [List.count_cons_self]
        by_cases h1 : F x = 1
        · rw [if_pos h1]
          simp only [List.cons_append, List.nil_append, List.mem_cons]
          constructor
          · intro _
            have hc0 : (0 : Int) ≤ (rest.count x : Int) := Int.ofNat_nonneg _
            push_cast
            omega
          · intro _
            exact Or.inl trivial
        · rw [if_neg h1]
          simp only [List.nil_append]
          rw [hchar x, if_pos rfl]
          push_cast
          omega
      · have hx2 : x ≠ nxt := hx
        rw [List.count_cons_of_ne hx2]
        have hmem : x ∈ (if F nxt = 1 then [nxt] else []) ++ app1 ↔ x ∈ app1 := by
          by_cases h1 : F nxt = 1 <;> simp [h1, hx]
        rw [hmem, hchar x, if_neg hx]

theorem remIndeg_eq_zero (edges : List Edge) (order : List String) (x : String) :
    remIndeg edges order x = 0 ↔ ∀ e ∈ edges, e.toId = x → e.fromId ∈ order := by
  unfold remIndeg
  rw [Int.natCast_eq_zero, List.countP_eq_zero]
  constructor
  · intro h e he ht
    have := h e he
    simp only [decide_eq_true_eq] at this
    by_contra hmem
    exact this ⟨ht, hmem⟩
  · intro h e he
    simp only [decide_eq_true_eq]
    rintro ⟨ht, hmem⟩
    exact hmem (h e he ht)

theorem cntEdge_pos (edges : List Edge) (u x : String) :
    0 < cntEdge edges u x ↔ ∃ e ∈ edges, e.fromId = u ∧ e.toId = x := by
  unfold cntEdge
  rw [Int.natCast_pos, List.countP_pos_iff]
  simp only [decide_eq_true_eq]

theorem kahnLoop_inv (nodes : List String) (edges : List Edge)
    (hnd : nodes.Nodup)
    (closed : ∀ e ∈ edges, e.fromId ∈ nodes ∧ e.toId ∈ nodes) :
    ∀ (n : Nat) (F : String → Int) (q order : List String),
      q.length + indegWeight (shapeInt nodes F) ≤ n →
      KahnInv nodes edges F q order →
      ∃ F2, KahnInv nodes edges F2 []
        (kahnLoop (outShape nodes edges) (shapeInt nodes F) q order) := by
  intro n
  induction n with
  | zero =>
    intro F q order hm hinv
    cases q with
    | nil =>
      rw [kahnLoop]
      exact ⟨F, hinv⟩
    | cons id q1 => simp at hm
  | succ n ih =>
    intro F q order hm hinv
    cases q with
    | nil =>
      rw [kahnLoop]
      exact ⟨F, hinv⟩
    | cons id q1 =>
      have hidN : id ∈ nodes := hinv.subN id (by simp)
      obtain ⟨hF0, hidOrd⟩ : F id = 0 ∧ id ∉ order :=
        (hinv.queue id hidN).mpr (by simp)
      have hout : (mapGet (outShape nodes edges) id).getD [] = outList edges id := by
        unfold outShape
        rw [mapGet_shape, if_pos hidN, Option.getD_some]
      have hsuccs_sub : ∀ x ∈ outList edges id, x ∈ nodes := by
        intro x hx
        obtain ⟨e, he, -, ht⟩ := (mem_outList edges id x).mp hx
        exact ht ▸ (closed e he).2
      obtain ⟨app, heq, happNd, hchar⟩ :=
        processSuccs_spec nodes hnd (outList edges id) F q1 hsuccs_sub
      rw [kahnLoop, hout, heq]
      dsimp only
      have hmeas := processSuccs_measure (outList edges id) (shapeInt nodes F) q1
      rw [heq] at hmeas
      dsimp only at hmeas
      have hOrder_sub : ∀ x ∈ order, x ∈ nodes :=
        fun x hx => hinv.subN x (List.mem_append_left _ hx)
      have hq1_sub : ∀ x ∈ q1, x ∈ nodes :=
        fun x hx => hinv.subN x (List.mem_append_right _ (List.mem_cons_of_mem _ hx))
      have happ_sub : ∀ x ∈ app, x ∈ nodes := by
        intro x hx
        obtain ⟨h1, h2⟩ := (hchar x).mp hx
        have hcpos : 0 < (outList edges id).count x := by omega
        exact hsuccs_sub x (List.count_pos_iff.mp hcpos)
      have hF_order : ∀ x ∈ order, F x = 0 := by
        intro x hx
        rw [hinv.count x (hOrder_sub x hx), remIndeg_eq_zero]
        intro e he ht
        exact (hinv.edgeOrd e he (ht ▸ hx)).1
      have hid_nq1 : id ∉ q1 := by
        have := hinv.nodup
        rw [List.nodup_append] at this
        exact (List.nodup_cons.mp this.2.1).1
      have hcnt_zero : ∀ x, F x = 0 → cntEdge edges id x = 0 := by
        intro x h0
        by_contra hne
        have hpos : 0 < cntEdge edges id x :=
          lt_of_le_of_ne (cntEdge_nonneg edges id x) (Ne.symm hne)
        obtain ⟨e, he, hf, ht⟩ := (cntEdge_pos edges id x).mp hpos
        have hxn : x ∈ nodes := ht ▸ (closed e he).2
        have := (remIndeg_eq_zero edges order x).mp ((hinv.count x hxn) ▸ h0) e he ht
        exact hidOrd (hf ▸ this)
      have hF2 : ∀ x ∈ nodes,
          F x - ((outList edges id).count x : Int) = remIndeg edges (order ++ [id]) x := by
        intro x hxn
        rw [remIndeg_append edges order id x hidOrd, ← hinv.count x hxn, count_outList]
      refine ih _ _ _ ?_ ?_
      · simp only [List.length_cons] at hm
        omega
      · refine ⟨?_, ?_, ?_, ?_, ?_⟩
        · -- nodup of (order ++ [id]) ++ (q1 ++ app)
          have hbase : ((order ++ [id]) ++ q1).Nodup := by
            rw [← List.append_cons]
            exact hinv.nodup
          rw [show (order ++ [id]) ++ (q1 ++ app) = ((order ++ [id]) ++ q1) ++ app by
            simp [List.append_assoc]]
          rw [List.nodup_append]
          refine ⟨hbase, happNd, ?_⟩
          intro x hx hxapp
          have h1 := ((hchar x).mp hxapp).1
          rcases List.mem_append.mp hx with hx1 | hx1
          · rcases List.mem_append.mp hx1 with hx2 | hx2
            · have := hF_order x hx2
              omega
            · have : x = id := List.mem_singleton.mp hx2
              rw [this] at h1
              omega
          · have hxn := hq1_sub x hx1
            have := (hinv.queue x hxn).mpr (List.mem_cons_of_mem _ hx1)
            omega
        · intro x hx
          rcases List.mem_append.mp hx with hx1 | hx1
          · rcases List.mem_append.mp hx1 with hx2 | hx2
            · exact hOrder_sub x hx2
            · exact (List.mem_singleton.mp hx2) ▸ hidN
          · rcases List.mem_append.mp hx1 with hx2 | hx2
            · exact hq1_sub x hx2
            · exact happ_sub x hx2
        · exact hF2
        · intro x hxn
          constructor
          · rintro ⟨h0, hnot⟩
            have hxO : x ∉ order := fun hc => hnot (List.mem_append_left _ hc)
            have hxid : x ≠ id := fun hc =>
              hnot (List.mem_append_right _ (hc ▸ List.mem_singleton_self id))
            by_cases hc : (outList edges id).count x = 0
            · have hFx : F x = 0 := by
                rw [hc] at h0
                push_cast at h0
                omega
              have := (hinv.queue x hxn).mp ⟨hFx, hxO⟩
              rcases List.mem_cons.mp this with h | h
              · exact absurd h hxid
              · exact List.mem_append_left _ h
            · have hc1 : 1 ≤ ((outList edges id).count x : Int) := by
                have : 0 < (outList edges id).count x := Nat.pos_of_ne_zero hc
                exact_mod_cast this
              refine List.mem_append_right _ ((hchar x).mpr ⟨?_, ?_⟩) <;> omega
          · intro hx
            rcases List.mem_append.mp hx with hx1 | hx1
            · obtain ⟨hFx, hxO⟩ := (hinv.queue x hxn).mpr (List.mem_cons_of_mem _ hx1)
              have hcz : cntEdge edges id x = 0 := hcnt_zero x hFx
              have hcnt0 : ((outList edges id).count x : Int) = 0 := by
                rw [count_outList, hcz]
              constructor
              · omega
              · intro hc
                rcases List.mem_append.mp hc with h | h
                · exact hxO h
                · exact hid_nq1 ((List.mem_singleton.mp h) ▸ hx1)
            · obtain ⟨h1, h2⟩ := (hchar x).mp hx1
              have hge : 0 ≤ F x - ((outList edges id).count x : Int) := by
                rw [hF2 x hxn]
                exact remIndeg_nonneg _ _ _
              constructor
              · omega
              · intro hc
                rcases List.mem_append.mp hc with h | h
                · have := hF_order x h
                  omega
                · rw [List.mem_singleton.mp h] at h1
                  omega
        · intro e he htO
          rcases List.mem_append.mp htO with ht1 | ht1
          · obtain ⟨hf1, hf2⟩ := hinv.edgeOrd e he ht1
            refine ⟨List.mem_append_left _ hf1, ?_⟩
            rw [List.indexOf_append_of_mem hf1, List.indexOf_append_of_mem ht1]
            exact hf2
          · have htid : e.toId = id := List.mem_singleton.mp ht1
            have hfrom : e.fromId ∈ order := by
              have h0 : remIndeg edges order id = 0 := by
                rw [← hinv.count id hidN]
                exact hF0
              exact (remIndeg_eq_zero edges order id).mp h0 e he htid
            refine ⟨List.mem_append_left _ hfrom, ?_⟩
            rw [List.indexOf_append_of_mem hfrom, htid,
              List.indexOf_append_of_not_mem hidOrd, List.indexOf_cons_self]
            have := List.indexOf_lt_length.mpr hfrom
            omega

theorem remIndeg_pos (edges : List Edge) (order : List String) (x : String) :
    0 < remIndeg edges order x ↔ ∃ e ∈ edges, e.toId = x ∧ e.fromId ∉ order := by
  unfold remIndeg
  rw [Int.natCast_pos, List.countP_pos_iff]
  simp only [decide_eq_true_eq]

/-- In a finite set where every element has a predecessor inside the set, the
    predecessor relation has a cycle. -/
theorem cycle_of_all_pred {α : Type} [DecidableEq α] (r : α → α → Prop) (S : List α)
    (hne : S ≠ []) (hpred : ∀ x ∈ S, ∃ y ∈ S, r y x) :
    ∃ a, Relation.TransGen r a a := by
  classical
  have hchoice : ∀ x : {a // a ∈ S}, ∃ y : {a // a ∈ S}, r y.1 x.1 := by
    rintro ⟨x, hx⟩
    obtain ⟨y, hy, hr⟩ := hpred x hx
    exact ⟨⟨y, hy⟩, hr⟩
  choose f hf using hchoice
  obtain ⟨s0, hs0⟩ : ∃ a, a ∈ S := by
    cases S with
    | nil => exact absurd rfl hne
    | cons a t => exact ⟨a, by simp⟩
  set seq : Nat → {a // a ∈ S} := predSeq ⟨s0, hs0⟩ f with hseq
  have hstep : ∀ n, r (seq (n + 1)).1 (seq n).1 := by
    intro n
    rw [hseq]
    exact hf (predSeq ⟨s0, hs0⟩ f n)
  have hchain : ∀ i j, i < j → Relation.TransGen r (seq j).1 (seq i).1 := by
    intro i j hij
    induction j with
    | zero => omega
    | succ j ihj =>
      rcases Nat.lt_succ_iff_lt_or_eq.mp hij with h | h
      · exact Relation.TransGen.head (hstep j) (ihj h)
      · rw [h]
        exact Relation.TransGen.single (hstep j)
  have hcard : S.toFinset.card < (Finset.range (S.toFinset.card + 1)).card := by simp
  obtain ⟨i, _, j, _, hij, hequal⟩ :=
    Finset.exists_ne_map_eq_of_card_lt_of_maps_to hcard
      (fun n _ => List.mem_toFinset.mpr (seq n).2)
  rcases lt_or_gt_of_ne hij with h | h
  · exact ⟨(seq i).1, hequal ▸ hchain i j h⟩
  · exact ⟨(seq j).1, hequal ▸ hchain j i h⟩

/-- With duplicate-free node declarations R covering part of the node set,
    full length forces full coverage. -/
theorem mem_of_full_length (R nodes : List String) (hndR : R.Nodup) (hndN : nodes.Nodup)
    (hsub : ∀ x ∈ R, x ∈ nodes) (hlen : R.length = nodes.length) :
    ∀ x, x ∈ R ↔ x ∈ nodes := by
  have hsubF : R.toFinset ⊆ nodes.toFinset := by
    intro x hx
    exact List.mem_toFinset.mpr (hsub x (List.mem_toFinset.mp hx))
  have hcard : nodes.toFinset.card ≤ R.toFinset.card := by
    rw [List.toFinset_card_of_nodup hndR, List.toFinset_card_of_nodup hndN, hlen]
  have heq := Finset.eq_of_subset_of_card_le hsubF hcard
  intro x
  rw [← List.mem_toFinset, ← List.mem_toFinset, heq]

/-- `topoSort` runs the Kahn loop from the canonical initial state: the final
    invariant holds of the produced order list. -/
theorem topoSort_run (nodes : List String) (edges : List Edge)
    (hnd : nodes.Nodup)
    (closed : ∀ e ∈ edges, e.fromId ∈ nodes ∧ e.toId ∈ nodes) :
    ∃ R F2, KahnInv nodes edges F2 [] R ∧
      topoSort nodes edges = if R.length ≠ nodes.length then ⟨false, []⟩ else ⟨true, R⟩ := by
  have hinit : nodes.foldl (fun m id => mapSet m id (0 : Int)) []
      = shapeInt nodes (fun _ => 0) := by
    rw [foldl_mapSet_const (0 : Int) nodes [] hnd (fun k _ => rfl)]
    simp [shapeInt]
  have hindeg : edges.foldl (fun m e => mapSet m e.toId ((mapGet m e.toId).getD 0 + 1))
      (shapeInt nodes (fun _ => 0)) = shapeInt nodes (remIndeg edges []) := by
    rw [indeg_build nodes hnd edges _ (fun e he => (closed e he).2)]
    refine shapeInt_congr nodes _ _ ?_
    intro a
    rw [remIndeg_nil]
    omega
  have houtinit : nodes.foldl (fun m id => mapSet m id ([] : List String)) []
      = nodes.map fun a => (a, ([] : List String)) := by
    rw [foldl_mapSet_const ([] : List String) nodes [] hnd (fun k _ => rfl)]
    simp
  have hout : edges.foldl
      (fun m e => mapSet m e.fromId ((mapGet m e.fromId).getD [] ++ [e.toId]))
      (nodes.map fun a => (a, ([] : List String))) = outShape nodes edges := by
    rw [out_build nodes hnd edges _ (fun e he => (closed e he).1)]
    unfold outShape
    exact List.map_congr_left (fun a _ => by simp)
  have hinv0 : KahnInv nodes edges (remIndeg edges [])
      (nodes.filter fun a => remIndeg edges [] a = 0) [] := by
    refine ⟨?_, ?_, ?_, ?_, ?_⟩
    · simpa using List.Nodup.filter _ hnd
    · intro x hx
      simp only [List.nil_append] at hx
      exact (List.mem_filter.mp hx).1
    · intro x _
      rfl
    · intro x hxn
      simp [List.mem_filter, hxn]
    · intro e _ ht
      simp at ht
  obtain ⟨F2, hinv2⟩ := kahnLoop_inv nodes edges hnd closed
    ((nodes.filter fun a => remIndeg edges [] a = 0).length
      + indegWeight (shapeInt nodes (remIndeg edges [])))
    (remIndeg edges []) (nodes.filter fun a => remIndeg edges [] a = 0) []
    (le_refl _) hinv0
  refine ⟨kahnLoop (outShape nodes edges) (shapeInt nodes (remIndeg edges []))
    (nodes.filter fun a => remIndeg edges [] a = 0) [], F2, hinv2, ?_⟩
  simp only [topoSort]
  rw [hinit, hindeg, houtinit, hout, seed_queue nodes (remIndeg edges [])]

/-- When `topoSort` reports `ok`, the order is duplicate-free, covers the nodes
    exactly, and puts the source of every edge strictly before its target. -/
theorem topoSort_sound (nodes : List String) (edges : List Edge)
    (hnd : nodes.Nodup)
    (closed : ∀ e ∈ edges, e.fromId ∈ nodes ∧ e.toId ∈ nodes)
    (hok : (topoSort nodes edges).ok = true) :
    (topoSort nodes edges).order.Nodup ∧
      (∀ x, x ∈ (topoSort nodes edges).order ↔ x ∈ nodes) ∧
      (∀ e ∈ edges, (topoSort nodes edges).order.indexOf e.fromId
          < (topoSort nodes edges).order.indexOf e.toId) := by
  obtain ⟨R, F2, hinv, heq⟩ := topoSort_run nodes edges hnd closed
  by_cases hlen : R.length ≠ nodes.length
  · rw [heq, if_pos hlen] at hok
    simp at hok
  · push_neg at hlen
    rw [heq, if_neg (by omega)]
    have hndR : R.Nodup := by simpa using hinv.nodup
    have hsub : ∀ x ∈ R, x ∈ nodes := fun x hx => hinv.subN x (by simpa using hx)
    have hmem := mem_of_full_length R nodes hndR hnd hsub hlen
    refine ⟨hndR, hmem, ?_⟩
    intro e he
    exact (hinv.edgeOrd e he ((hmem e.toId).mpr (closed e he).2)).2

/-- On an acyclic validly built graph the Kahn loop drains completely. -/
theorem topoSort_complete (nodes : List String) (edges : List Edge)
    (hnd : nodes.Nodup)
    (closed : ∀ e ∈ edges, e.fromId ∈ nodes ∧ e.toId ∈ nodes)
    (hacyc : ∀ a, ¬ Relation.TransGen (edgeRel edges) a a) :
    (topoSort nodes edges).ok = true := by
  obtain ⟨R, F2, hinv, heq⟩ := topoSort_run nodes edges hnd closed
  have hndR : R.Nodup := by simpa using hinv.nodup
  have hsub : ∀ x ∈ R, x ∈ nodes := fun x hx => hinv.subN x (by simpa using hx)
  by_cases hall : ∀ x ∈ nodes, x ∈ R
  · have hlen : R.length = nodes.length := by
      have h1 : R.toFinset = nodes.toFinset := by
        apply Finset.Subset.antisymm
        · intro x hx
          exact List.mem_toFinset.mpr (hsub x (List.mem_toFinset.mp hx))
        · intro x hx
          exact List.mem_toFinset.mpr (hall x (List.mem_toFinset.mp hx))
      rw [← List.toFinset_card_of_nodup hndR, ← List.toFinset_card_of_nodup hnd, h1]
    rw [heq, if_neg (by omega)]
  · exfalso
    push_neg at hall
    obtain ⟨x0, hx0n, hx0R⟩ := hall
    set S := nodes.filter (fun a => a ∉ R) with hS
    have hSne : S ≠ [] := by
      intro hc
      have : x0 ∈ S := by
        rw [hS]
        simp [List.mem_filter, hx0n, hx0R]
      rw [hc] at this
      simp at this
    have hSmem : ∀ x, x ∈ S ↔ x ∈ nodes ∧ x ∉ R := by
      intro x
      rw [hS]
      simp [List.mem_filter]
    have hSpred : ∀ x ∈ S, ∃ y ∈ S, edgeRel edges y x := by
      intro x hx
      obtain ⟨hxn, hxR⟩ := (hSmem x).mp hx
      have hF : F2 x ≠ 0 := by
        intro hc
        have := (hinv.queue x hxn).mp ⟨hc, hxR⟩
        simp at this
      have hpos : 0 < remIndeg edges R x := by
        have h1 := hinv.count x hxn
        have h2 := remIndeg_nonneg edges R x
        omega
      obtain ⟨e, he, ht, hf⟩ := (remIndeg_pos edges R x).mp hpos
      refine ⟨e.fromId, (hSmem e.fromId).mpr ⟨(closed e he).1, hf⟩, ?_⟩
      unfold edgeRel
      have : Edge.mk e.fromId x = e := by
        cases e
        simp_all
      rw [this]
      exact he
    obtain ⟨a, ha⟩ := cycle_of_all_pred (edgeRel edges) S hSne hSpred
    exact hacyc a ha

/-- On a cyclic graph the Kahn loop cannot drain: `topoSort` returns
    `ok = false` with an empty order. -/
theorem topoSort_cyclic (nodes : List String) (edges : List Edge)
    (hnd : nodes.Nodup)
    (closed : ∀ e ∈ edges, e.fromId ∈ nodes ∧ e.toId ∈ nodes)
    (hcyc : ∃ a, Relation.TransGen (edgeRel edges) a a) :
    topoSort nodes edges = ⟨false, []⟩ := by
  obtain ⟨R, F2, hinv, heq⟩ := topoSort_run nodes edges hnd closed
  rw [heq]
  by_cases hlen : R.length ≠ nodes.length
  · rw [if_pos hlen]
  · exfalso
    push_neg at hlen
    have hndR : R.Nodup := by simpa using hinv.nodup
    have hsub : ∀ x ∈ R, x ∈ nodes := fun x hx => hinv.subN x (by simpa using hx)
    have hmem := mem_of_full_length R nodes hndR hnd hsub hlen
    have hidx : ∀ x y, Relation.TransGen (edgeRel edges) x y →
        R.indexOf x < R.indexOf y := by
      intro x y h
      induction h with
      | single h1 =>
        exact (hinv.edgeOrd _ h1 ((hmem _).mpr (closed _ h1).2)).2
      | tail h1 h2 ih =>
        exact lt_trans ih (hinv.edgeOrd _ h2 ((hmem _).mpr (closed _ h2).2)).2
    obtain ⟨a, ha⟩ := hcyc
    exact absurd (hidx a a ha) (by omega)

/-- A complete Kahn order certifies acyclicity (used to discharge acyclicity
    hypotheses on concrete graphs). -/
theorem acyclic_of_topoSort_ok (nodes : List String) (edges : List Edge)
    (hnd : nodes.Nodup)
    (closed : ∀ e ∈ edges, e.fromId ∈ nodes ∧ e.toId ∈ nodes)
    (hok : (topoSort nodes edges).ok = true) :
    ∀ a, ¬ Relation.TransGen (edgeRel edges) a a := by
  intro a ha
  obtain ⟨-, hmem, hidx⟩ := topoSort_sound nodes edges hnd closed hok
  have hmono : ∀ x y, Relation.TransGen (edgeRel edges) x y →
      (topoSort nodes edges).order.indexOf x < (topoSort nodes edges).order.indexOf y := by
    intro x y h
    induction h with
    | single h1 => exact hidx _ h1
    | tail h1 h2 ih => exact lt_trans ih (hidx _ h2)
  exact absurd (hmono a a ha) (by omega)

/-! ### Characterising a successful load -/

theorem mapGet_eq_none_iff {α β : Type} [DecidableEq α] (l : List (α × β)) (x : α) :
    mapGet l x = none ↔ x ∉ l.map Prod.fst := by
  induction l with
  | nil => simp [mapGet]
  | cons hd tl ih =>
    obtain ⟨k, v⟩ := hd
    by_cases hk : k = x
    · subst hk
      simp [mapGet]
    · have hxk : ¬ x = k := fun he => hk he.symm
      simp [mapGet, hk, hxk, ih]

theorem mapGet_of_mem_nodupKeys {α β : Type} [DecidableEq α] (l : List (α × β))
    (hnd : (l.map Prod.fst).Nodup) (b : α) (n : β) (h : (b, n) ∈ l) :
    mapGet l b = some n := by
  induction l with
  | nil => simp at h
  | cons hd tl ih =>
    obtain ⟨k, v⟩ := hd
    simp only [List.map_cons, List.nodup_cons] at hnd
    rcases List.mem_cons.mp h with h1 | h1
    · injection h1 with hk hv
      subst hk
      subst hv
      simp [mapGet]
    · have hkb : ¬ k = b := by
        intro he
        exact hnd.1 (he ▸ (List.mem_map.mpr ⟨(b, n), h1, rfl⟩))
      simp only [mapGet, hkb, if_false]
      exact ih hnd.2 h1

theorem idsOf_eq_rawIds (d : RawWorkflow) : idsOf d = rawIds (d.nodes.getD []) := rfl

theorem nodePairs_fst (l : List (Option RawNode)) :
    (nodePairs l).map Prod.fst = rawIds l := by
  induction l with
  | nil => rfl
  | cons n rest ih =>
    cases n with
    | none => simpa [nodePairs, rawIds] using ih
    | some node =>
      cases hid : node.id with
      | none => simpa [nodePairs, rawIds, hid] using ih
      | some i => simpa [nodePairs, rawIds, hid] using ih

theorem scanNodes_none (l : List (Option RawNode)) :
    ∀ acc, (scanNodes l acc).2 = none →
      (scanNodes l acc).1 = acc ++ nodePairs l ∧ allValid l ∧
        ((acc.map Prod.fst).Nodup → ((acc ++ nodePairs l).map Prod.fst).Nodup) := by
  induction l with
  | nil =>
    intro acc _
    refine ⟨by simp [scanNodes, nodePairs], ?_, ?_⟩
    · intro n hn
      simp at hn
    · intro h
      simpa [nodePairs] using h
  | cons n rest ih =>
    intro acc h
    cases n with
    | none => simp [scanNodes] at h
    | some node =>
      cases hid : node.id with
      | none => simp [scanNodes, hid] at h
      | some i =>
        by_cases htrim : trimsEmpty i
        · simp [scanNodes, hid, htrim] at h
        · by_cases hdup : (mapGet acc i).isSome
          · simp [scanNodes, hid, htrim, hdup] at h
          · have hnone : mapGet acc i = none := Option.not_isSome_iff_eq_none.mp hdup
            have hstep : scanNodes (some node :: rest) acc = scanNodes rest (mapSet acc i node) := by
              simp [scanNodes, hid, htrim, hdup]
            rw [hstep] at h
            have hms : mapSet acc i node = acc ++ [(i, node)] :=
              mapSet_of_get_none acc i node hnone
            obtain ⟨h1, h2, h3⟩ := ih (mapSet acc i node) h
            rw [hms] at h1 h3
            have hnpr : nodePairs (some node :: rest) = (i, node) :: nodePairs rest := by
              simp [nodePairs, hid]
            refine ⟨?_, ?_, ?_⟩
            · rw [hstep, hms, h1, hnpr]
              simp
            · intro m hm
              rcases List.mem_cons.mp hm with h4 | h4
              · exact ⟨node, i, h4, hid, by simpa using htrim⟩
              · exact h2 m h4
            · intro hndacc
              have hfresh : i ∉ acc.map Prod.fst := (mapGet_eq_none_iff acc i).mp hnone
              have hnd1 : ((acc ++ [(i, node)]).map Prod.fst).Nodup := by
                simp only [List.map_append, List.map_cons, List.map_nil]
                rw [List.nodup_append]
                refine ⟨hndacc, List.nodup_singleton i, ?_⟩
                intro x hx hx1
                rw [List.mem_singleton.mp hx1] at hx
                exact hfresh hx
              have := h3 hnd1
              rw [hnpr]
              rw [show acc ++ (i, node) :: nodePairs rest
                  = (acc ++ [(i, node)]) ++ nodePairs rest by simp]
              exact this

/-- A well-formed, duplicate-free node list passes the first validation pass. -/
theorem scanNodes_ok (l : List (Option RawNode)) :
    ∀ acc, allValid l →
      ((acc.map Prod.fst) ++ rawIds l).Nodup →
      (scanNodes l acc).2 = none := by
  induction l with
  | nil =>
    intro acc _ _
    simp [scanNodes]
  | cons n rest ih =>
    intro acc hv hnd
    obtain ⟨node, i, hn, hid, htrim⟩ := hv n (List.mem_cons_self n rest)
    subst hn
    have hraw : rawIds (some node :: rest) = i :: rawIds rest := by
      simp [rawIds, hid]
    rw [hraw] at hnd
    have hfresh : i ∉ acc.map Prod.fst := by
      rw [List.nodup_append] at hnd
      intro hc
      exact hnd.2.2 hc (List.mem_cons_self i _)
    have hnone : mapGet acc i = none := (mapGet_eq_none_iff acc i).mpr hfresh
    have hdup : ¬ (mapGet acc i).isSome := by
      rw [hnone]
      simp
    have hstep : scanNodes (some node :: rest) acc = scanNodes rest (mapSet acc i node) := by
      simp [scanNodes, hid, htrim, hdup]
    rw [hstep]
    refine ih (mapSet acc i node) (fun m hm => hv m (List.mem_cons_of_mem _ hm)) ?_
    rw [mapSet_of_get_none acc i node hnone]
    simp only [List.map_append, List.map_cons, List.map_nil]
    rw [show (acc.map Prod.fst ++ [i]) ++ rawIds rest
        = acc.map Prod.fst ++ i :: rawIds rest by simp]
    exact hnd

theorem mapGet_isSome_iff {α β : Type} [DecidableEq α] (l : List (α × β)) (x : α) :
    (mapGet l x).isSome ↔ x ∈ l.map Prod.fst := by
  rw [← not_iff_not]
  rw [Option.not_isSome_iff_eq_none, mapGet_eq_none_iff]

theorem mem_depIds (n : RawNode) (x : String) :
    x ∈ depIds n ↔ ∃ dep ∈ n.depends_on, dep.bind (fun d => d.node_id) = some x := by
  unfold depIds
  rw [List.mem_filterMap]

theorem mem_edgesOf (l : List (Option RawNode)) (e : Edge) :
    e ∈ edgesOf l ↔ ∃ p ∈ nodePairs l, e.toId = p.1 ∧ e.fromId ∈ depIds p.2 := by
  unfold edgesOf
  rw [List.mem_flatMap]
  constructor
  · rintro ⟨p, hp, hmem⟩
    obtain ⟨s, hs, hes⟩ := List.mem_map.mp hmem
    refine ⟨p, hp, ?_, ?_⟩
    · rw [← hes]
    · rw [show e.fromId = s by rw [← hes]]
      exact hs
  · rintro ⟨p, hp, ht, hf⟩
    refine ⟨p, hp, List.mem_map.mpr ⟨e.fromId, hf, ?_⟩⟩
    cases e
    simp_all

theorem buildNodeEdges_none (byId : List (String × RawNode)) (nid : String) :
    ∀ (deps : List (Option RawDep)) (acc : List Edge),
      (buildNodeEdges byId nid deps acc).2 = none →
      (buildNodeEdges byId nid deps acc).1
          = acc ++ (deps.filterMap (fun dep => dep.bind (fun d => d.node_id))).map
              (fun s => Edge.mk s nid) ∧
        ∀ dep ∈ deps, ∃ d s, dep = some d ∧ d.node_id = some s ∧ (mapGet byId s).isSome := by
  intro deps
  induction deps with
  | nil =>
    intro acc _
    refine ⟨by simp [buildNodeEdges], ?_⟩
    intro dep hd
    simp at hd
  | cons dep rest ih =>
    intro acc h
    cases dep with
    | none => simp [buildNodeEdges] at h
    | some d =>
      cases hnid : d.node_id with
      | none => simp [buildNodeEdges, hnid] at h
      | some s =>
        by_cases hres : (mapGet byId s).isSome
        · have hstep : buildNodeEdges byId nid (some d :: rest) acc
              = buildNodeEdges byId nid rest (acc ++ [Edge.mk s nid]) := by
            simp [buildNodeEdges, hnid, hres]
          rw [hstep] at h
          obtain ⟨h1, h2⟩ := ih (acc ++ [Edge.mk s nid]) h
          refine ⟨?_, ?_⟩
          · rw [hstep, h1]
            simp [hnid]
          · intro dep1 hd1
            rcases List.mem_cons.mp hd1 with h3 | h3
            · exact ⟨d, s, h3, hnid, hres⟩
            · exact h2 dep1 h3
        · simp [buildNodeEdges, hnid, hres] at h

theorem buildNodeEdges_ok (byId : List (String × RawNode)) (nid : String) :
    ∀ (deps : List (Option RawDep)) (acc : List Edge),
      (∀ dep ∈ deps, ∃ d s, dep = some d ∧ d.node_id = some s ∧ (mapGet byId s).isSome) →
      (buildNodeEdges byId nid deps acc).2 = none := by
  intro deps
  induction deps with
  | nil =>
    intro acc _
    simp [buildNodeEdges]
  | cons dep rest ih =>
    intro acc hwf
    obtain ⟨d, s, hd, hnid, hres⟩ := hwf dep (List.mem_cons_self dep rest)
    subst hd
    have hstep : buildNodeEdges byId nid (some d :: rest) acc
        = buildNodeEdges byId nid rest (acc ++ [Edge.mk s nid]) := by
      simp [buildNodeEdges, hnid, hres]
    rw [hstep]
    exact ih _ (fun dep1 hd1 => hwf dep1 (List.mem_cons_of_mem _ hd1))

theorem buildEdges_none (byId : List (String × RawNode)) :
    ∀ (l : List (Option RawNode)) (acc : List Edge),
      allValid l → (buildEdges byId l acc).2 = none →
      (buildEdges byId l acc).1 = acc ++ edgesOf l ∧
        ∀ p ∈ nodePairs l, depsWf byId p.2 := by
  intro l
  induction l with
  | nil =>
    intro acc _ _
    refine ⟨by simp [buildEdges, edgesOf, nodePairs], ?_⟩
    intro p hp
    simp [nodePairs] at hp
  | cons n rest ih =>
    intro acc hv h
    obtain ⟨node, i, hn, hid, -⟩ := hv n (List.mem_cons_self n rest)
    subst hn
    have hgd : (some node).getD (⟨none, []⟩ : RawNode) = node := rfl
    have hstep0 : buildEdges byId (some node :: rest) acc
        = (match (buildNodeEdges byId (node.id.getD "") node.depends_on acc).2 with
          | some m => ((buildNodeEdges byId (node.id.getD "") node.depends_on acc).1, some m)
          | none => buildEdges byId rest (buildNodeEdges byId (node.id.getD "") node.depends_on acc).1) := by
      rw [buildEdges]
      rfl
    cases hb : (buildNodeEdges byId (node.id.getD "") node.depends_on acc).2 with
    | some m =>
      rw [hstep0, hb] at h
      simp at h
    | none =>
      rw [hstep0, hb] at h ⊢
      obtain ⟨hb1, hb2⟩ := buildNodeEdges_none byId (node.id.getD "") node.depends_on acc hb
      obtain ⟨h1, h2⟩ := ih _ (fun m hm => hv m (List.mem_cons_of_mem _ hm)) h
      have hnpr : nodePairs (some node :: rest) = (i, node) :: nodePairs rest := by
        simp [nodePairs, hid]
      refine ⟨?_, ?_⟩
      · have hedg : edgesOf (some node :: rest)
            = (depIds node).map (fun s => Edge.mk s i) ++ edgesOf rest := by
          unfold edgesOf
          rw [hnpr, List.flatMap_cons]
        rw [h1, hb1, hedg, hid]
        simp [depIds, List.append_assoc]
      · intro p hp
        rw [hnpr] at hp
        rcases List.mem_cons.mp hp with h3 | h3
        · intro dep hd
          have : p.2 = node := by rw [h3]
          exact hb2 dep (this ▸ hd)
        · exact h2 p h3

theorem buildEdges_ok (byId : List (String × RawNode)) :
    ∀ (l : List (Option RawNode)) (acc : List Edge),
      allValid l →
      (∀ p ∈ nodePairs l, depsWf byId p.2) →
      (buildEdges byId l acc).2 = none := by
  intro l
  induction l with
  | nil =>
    intro acc _ _
    simp [buildEdges]
  | cons n rest ih =>
    intro acc hv hwf
    obtain ⟨node, i, hn, hid, -⟩ := hv n (List.mem_cons_self n rest)
    subst hn
    have hnpr : nodePairs (some node :: rest) = (i, node) :: nodePairs rest := by
      simp [nodePairs, hid]
    have hb : (buildNodeEdges byId (node.id.getD "") node.depends_on acc).2 = none := by
      refine buildNodeEdges_ok byId _ node.depends_on acc ?_
      have := hwf (i, node) (by rw [hnpr]; exact List.mem_cons_self _ _)
      exact this
    have hstep0 : buildEdges byId (some node :: rest) acc
        = (match (buildNodeEdges byId (node.id.getD "") node.depends_on acc).2 with
          | some m => ((buildNodeEdges byId (node.id.getD "") node.depends_on acc).1, some m)
          | none => buildEdges byId rest (buildNodeEdges byId (node.id.getD "") node.depends_on acc).1) := by
      rw [buildEdges]
      rfl
    rw [hstep0, hb]
    exact ih _ (fun m hm => hv m (List.mem_cons_of_mem _ hm))
      (fun p hp => hwf p (by rw [hnpr]; exact List.mem_cons_of_mem _ hp))

/-- Full characterisation of a load that does not throw: `byId` records the
    node pairs in order, `edges` is the derived edge list, ids are unique, and
    every edge endpoint is a declared id. -/
theorem validate_ok (d : RawWorkflow) (byId : List (String × RawNode)) (edges : List Edge)
    (h : _validateAndBuildGraph d = (byId, edges, none)) :
    byId = nodePairs (d.nodes.getD []) ∧
      edges = edgesOf (d.nodes.getD []) ∧
      allValid (d.nodes.getD []) ∧
      (idsOf d).Nodup ∧
      (∀ e ∈ edges, e.fromId ∈ idsOf d ∧ e.toId ∈ idsOf d) := by
  unfold _validateAndBuildGraph at h
  simp only [] at h
  cases hs : (scanNodes (d.nodes.getD []) []).2 with
  | some m =>
    rw [hs] at h
    simp at h
  | none =>
    rw [hs] at h
    simp only at h
    injection h with hbyId h
    injection h with hedges hbuild
    obtain ⟨h1, h2, h3⟩ := scanNodes_none (d.nodes.getD []) [] hs
    simp only [List.nil_append] at h1
    rw [hbyId] at h1
    rw [hbyId] at hedges hbuild
    have hbyId2 : byId = nodePairs (d.nodes.getD []) := h1
    have hkeys : (byId.map Prod.fst).Nodup := by
      have := h3 (by simp)
      simpa [← hbyId2] using this
    have hids : (idsOf d).Nodup := by
      rw [idsOf_eq_rawIds, ← nodePairs_fst, ← hbyId2]
      exact hkeys
    obtain ⟨h4, h5⟩ := buildEdges_none byId (d.nodes.getD []) [] h2 hbuild
    have hedges2 : edges = edgesOf (d.nodes.getD []) := by
      rw [← hedges, h4]
      simp
    refine ⟨hbyId2, hedges2, h2, hids, ?_⟩
    intro e he
    rw [hedges2] at he
    obtain ⟨p, hp, ht, hf⟩ := (mem_edgesOf _ e).mp he
    constructor
    · obtain ⟨dep, hd, hdep⟩ := (mem_depIds p.2 e.fromId).mp hf
      obtain ⟨dd, s, hdd, hnid, hres⟩ := h5 p hp dep hd
      have hse : s = e.fromId := by
        rw [hdd] at hdep
        simp only [Option.some_bind, hnid] at hdep
        exact Option.some.inj hdep
      rw [idsOf_eq_rawIds, ← nodePairs_fst, ← hbyId2, ← mapGet_isSome_iff, ← hse]
      exact hres
    · rw [ht, idsOf_eq_rawIds, ← nodePairs_fst]
      exact List.mem_map.mpr ⟨p, hp, rfl⟩

/-- A well-formed input (valid unique ids, every dependency resolving among the
    declared ids — the node itself included) loads without throwing. -/
theorem validate_succeeds (d : RawWorkflow)
    (hv : allValid (d.nodes.getD []))
    (hnd : (idsOf d).Nodup)
    (hdeps : ∀ p ∈ nodePairs (d.nodes.getD []), ∀ dep ∈ p.2.depends_on,
      ∃ dd s, dep = some dd ∧ dd.node_id = some s ∧ s ∈ idsOf d) :
    _validateAndBuildGraph d
      = (nodePairs (d.nodes.getD []), edgesOf (d.nodes.getD []), none) := by
  have hscan : (scanNodes (d.nodes.getD []) []).2 = none :=
    scanNodes_ok _ [] hv (by simpa [idsOf_eq_rawIds] using hnd)
  obtain ⟨h1, -, -⟩ := scanNodes_none _ [] hscan
  simp only [List.nil_append] at h1
  have hwf : ∀ p ∈ nodePairs (d.nodes.getD []),
      depsWf (nodePairs (d.nodes.getD [])) p.2 := by
    intro p hp dep hd
    obtain ⟨dd, s, hdd, hs, hmem⟩ := hdeps p hp dep hd
    refine ⟨dd, s, hdd, hs, ?_⟩
    rw [mapGet_isSome_iff, nodePairs_fst]
    exact (idsOf_eq_rawIds d) ▸ hmem
  have hbuild : (buildEdges (nodePairs (d.nodes.getD [])) (d.nodes.getD []) []).2 = none :=
    buildEdges_ok _ _ [] hv hwf
  obtain ⟨hb1, -⟩ := buildEdges_none _ _ [] hv hbuild
  unfold _validateAndBuildGraph
  simp only []
  rw [hscan]
  dsimp only
  rw [h1, hb1, hbuild]
  simp

/-! ### Correctness of the depth pass -/

theorem depths_foldl_stable (byId : List (String × RawNode)) :
    ∀ (todo : List String) (m : List (String × Nat)) (x : String), x ∉ todo →
      mapGet (todo.foldl
          (fun m id => mapSet m id (depthStep m ((mapGet byId id).getD ⟨none, []⟩))) m) x
        = mapGet m x := by
  intro todo
  induction todo with
  | nil => intro m x _; rfl
  | cons t rest ih =>
    intro m x hx
    have hxt : ¬ t = x := fun he => hx (he ▸ List.mem_cons_self t rest)
    have hxr : x ∉ rest := fun hc => hx (List.mem_cons_of_mem _ hc)
    simp only [List.foldl_cons]
    rw [ih _ x hxr, mapGet_mapSet, if_neg hxt]

theorem depthStep_congr (m1 m2 : List (String × Nat)) (node : RawNode)
    (h : ∀ dep ∈ node.depends_on, depDepth m1 dep = depDepth m2 dep) :
    depthStep m1 node = depthStep m2 node := by
  unfold depthStep
  have hgen : ∀ (deps : List (Option RawDep)) (a : Nat),
      (∀ dep ∈ deps, depDepth m1 dep = depDepth m2 dep) →
      deps.foldl (fun a dep => max a (depDepth m1 dep + 1)) a
        = deps.foldl (fun a dep => max a (depDepth m2 dep + 1)) a := by
    intro deps
    induction deps with
    | nil => intro a _; rfl
    | cons dep rest ih =>
      intro a hh
      simp only [List.foldl_cons, hh dep (List.mem_cons_self dep rest)]
      exact ih _ (fun d hd1 => hh d (List.mem_cons_of_mem _ hd1))
  exact hgen node.depends_on 0 h

theorem foldl_max_le_init {α : Type} (f : α → Nat) :
    ∀ (l : List α) (a : Nat), a ≤ l.foldl (fun a x => max a (f x)) a := by
  intro l
  induction l with
  | nil => intro a; exact le_refl a
  | cons x rest ih =>
    intro a
    simp only [List.foldl_cons]
    exact le_trans (le_max_left a (f x)) (ih _)

theorem foldl_max_elem {α : Type} (f : α → Nat) :
    ∀ (l : List α) (a : Nat) (d : α), d ∈ l → f d ≤ l.foldl (fun a x => max a (f x)) a := by
  intro l
  induction l with
  | nil => intro a d hd; simp at hd
  | cons x rest ih =>
    intro a d hd
    simp only [List.foldl_cons]
    rcases List.mem_cons.mp hd with h | h
    · subst h
      exact le_trans (le_max_right a (f d)) (foldl_max_le_init f rest _)
    · exact ih _ d h

theorem foldl_max_succ {α : Type} (f : α → Nat) :
    ∀ (l : List α) (a : Nat),
      l.foldl (fun a x => max a (f x + 1)) (a + 1)
        = 1 + l.foldl (fun a x => max a (f x)) a := by
  intro l
  induction l with
  | nil =>
    intro a
    simp only [List.foldl_nil]
    omega
  | cons x rest ih =>
    intro a
    simp only [List.foldl_cons]
    rw [show max (a + 1) (f x + 1) = max a (f x) + 1 from Nat.succ_max_succ a (f x)]
    rw [ih]

theorem depthStep_ne_nil {m : List (String × Nat)} {node : RawNode}
    (h : node.depends_on ≠ []) :
    depthStep m node
      = 1 + node.depends_on.foldl (fun a dep => max a (depDepth m dep)) 0 := by
  unfold depthStep
  cases hd : node.depends_on with
  | nil => exact absurd hd h
  | cons dep rest =>
    simp only [List.foldl_cons]
    rw [show max 0 (depDepth m dep + 1) = depDepth m dep + 1 by omega,
      show max 0 (depDepth m dep) = depDepth m dep by omega]
    exact foldl_max_succ (fun dep => depDepth m dep) rest (depDepth m dep)

/-- The depth table a forward pass over a valid topological order computes
    satisfies the depth equations: each loaded node's recorded depth is the
    step value computed from the final table itself. -/
theorem computeDepths_spec (l : List (Option RawNode)) (order : List String)
    (hndKeys : (rawIds l).Nodup)
    (hndO : order.Nodup)
    (hmem : ∀ x, x ∈ order ↔ x ∈ rawIds l)
    (hclosed : ∀ e ∈ edgesOf l, e.fromId ∈ rawIds l)
    (hidx : ∀ e ∈ edgesOf l, order.indexOf e.fromId < order.indexOf e.toId) :
    ∀ b n, (b, n) ∈ nodePairs l →
      mapGet (_computeDepths (nodePairs l) order) b
        = some (depthStep (_computeDepths (nodePairs l) order) n) := by
  intro b n hbn
  have hbKeys : b ∈ rawIds l := by
    rw [← nodePairs_fst]
    exact List.mem_map.mpr ⟨(b, n), hbn, rfl⟩
  have hbO : b ∈ order := (hmem b).mpr hbKeys
  obtain ⟨pre, post, hsplit⟩ := List.append_of_mem hbO
  have hbpre : b ∉ pre := by
    intro hc
    rw [hsplit] at hndO
    rw [List.nodup_append] at hndO
    exact hndO.2.2 hc (List.mem_cons_self b post)
  have hbpost : b ∉ post := by
    rw [hsplit] at hndO
    rw [List.nodup_append] at hndO
    exact (List.nodup_cons.mp hndO.2.1).1
  have hidxb : order.indexOf b = pre.length := by
    rw [hsplit, List.indexOf_append_of_not_mem hbpre, List.indexOf_cons_self]
    omega
  have hget : mapGet (nodePairs l) b = some n :=
    mapGet_of_mem_nodupKeys (nodePairs l) (by rw [nodePairs_fst]; exact hndKeys) b n hbn
  set step := fun (m : List (String × Nat)) (id : String) =>
    mapSet m id (depthStep m ((mapGet (nodePairs l) id).getD ⟨none, []⟩)) with hstepdef
  set depth0 := order.foldl (fun m id => mapSet m id 0) [] with hd0
  have hdm : _computeDepths (nodePairs l) order = post.foldl step (step (pre.foldl step depth0) b) := by
    unfold _computeDepths
    rw [← hd0, hsplit, List.foldl_append, List.foldl_cons]
  set m1 := pre.foldl step depth0 with hm1
  have hstepb : step m1 b = mapSet m1 b (depthStep m1 n) := by
    rw [hstepdef]
    simp only [hget, Option.getD_some]
  have hdmb : mapGet (_computeDepths (nodePairs l) order) b = some (depthStep m1 n) := by
    rw [hdm, depths_foldl_stable (nodePairs l) post _ b hbpost, hstepb, mapGet_mapSet,
      if_pos rfl]
  rw [hdmb]
  refine congrArg some (depthStep_congr m1 _ n ?_)
  intro dep hdep
  cases dep with
  | none => rfl
  | some dd =>
    cases hnid : dd.node_id with
    | none => simp [depDepth, hnid]
    | some s =>
      have hsdep : s ∈ depIds n := by
        rw [mem_depIds]
        exact ⟨some dd, hdep, by simp [hnid]⟩
      have hedge : Edge.mk s b ∈ edgesOf l := by
        rw [mem_edgesOf]
        exact ⟨(b, n), hbn, rfl, hsdep⟩
      have hsO : s ∈ order := (hmem s).mpr (hclosed _ hedge)
      have hsidx : order.indexOf s < pre.length := by
        have := hidx _ hedge
        simp only at this
        omega
      have hspre : s ∈ pre := by
        by_contra hc
        rw [hsplit, List.indexOf_append_of_not_mem hc] at hsidx
        omega
      have hsb : ¬ b = s := by
        intro he
        exact hbpre (he ▸ hspre)
      have hspost : s ∉ post := by
        intro hc
        rw [hsplit] at hndO
        rw [List.nodup_append] at hndO
        exact hndO.2.2 hspre (List.mem_cons_of_mem _ hc)
      have hstable : mapGet (_computeDepths (nodePairs l) order) s = mapGet m1 s := by
        rw [hdm, depths_foldl_stable (nodePairs l) post _ s hspost, hstepb, mapGet_mapSet,
          if_neg hsb]
      simp [depDepth, hnid, hstable]

/-! ### Layout lemmas -/

theorem applyWrites_not_written (W : List (String × Pos)) :
    ∀ (ps : List (String × Pos)) (x : String), (∀ kv ∈ W, kv.1 ≠ x) →
      mapGet (applyWrites ps W) x = mapGet ps x := by
  induction W with
  | nil => intro ps x _; rfl
  | cons kv rest ih =>
    intro ps x hno
    simp only [applyWrites, List.foldl_cons]
    have := ih (mapSet ps kv.1 kv.2) x (fun kv1 h1 => hno kv1 (List.mem_cons_of_mem _ h1))
    simp only [applyWrites] at this
    rw [this, mapGet_mapSet, if_neg (hno kv (List.mem_cons_self kv rest))]

theorem applyWrites_written_eq (W : List (String × Pos)) :
    ∀ (ps1 ps2 : List (String × Pos)) (x : String), (∃ v, (x, v) ∈ W) →
      mapGet (applyWrites ps1 W) x = mapGet (applyWrites ps2 W) x := by
  induction W with
  | nil =>
    intro ps1 ps2 x h
    obtain ⟨v, hv⟩ := h
    simp at hv
  | cons kv rest ih =>
    intro ps1 ps2 x h
    by_cases hrest : ∃ v, (x, v) ∈ rest
    · simp only [applyWrites, List.foldl_cons]
      exact ih (mapSet ps1 kv.1 kv.2) (mapSet ps2 kv.1 kv.2) x hrest
    · obtain ⟨v, hv⟩ := h
      have hkv : (x, v) = kv := by
        rcases List.mem_cons.mp hv with h1 | h1
        · exact h1
        · exact absurd ⟨v, h1⟩ hrest
      have hk1 : kv.1 = x := by rw [← hkv]
      have hno : ∀ kv1 ∈ rest, kv1.1 ≠ x := by
        intro kv1 h1 hc
        exact hrest ⟨kv1.2, by rw [← hc]; exact h1⟩
      simp only [applyWrites, List.foldl_cons]
      have e1 := applyWrites_not_written rest (mapSet ps1 kv.1 kv.2) x hno
      have e2 := applyWrites_not_written rest (mapSet ps2 kv.1 kv.2) x hno
      simp only [applyWrites] at e1 e2
      rw [e1, e2, mapGet_mapSet, mapGet_mapSet, if_pos hk1, if_pos hk1]

theorem applyWrites_written_isSome (W : List (String × Pos)) :
    ∀ (ps : List (String × Pos)) (x : String), (∃ v, (x, v) ∈ W) →
      (mapGet (applyWrites ps W) x).isSome := by
  induction W with
  | nil =>
    intro ps x h
    obtain ⟨v, hv⟩ := h
    simp at hv
  | cons kv rest ih =>
    intro ps x h
    by_cases hrest : ∃ v, (x, v) ∈ rest
    · simp only [applyWrites, List.foldl_cons]
      exact ih (mapSet ps kv.1 kv.2) x hrest
    · obtain ⟨v, hv⟩ := h
      have hkv : (x, v) = kv := by
        rcases List.mem_cons.mp hv with h1 | h1
        · exact h1
        · exact absurd ⟨v, h1⟩ hrest
      have hk1 : kv.1 = x := by rw [← hkv]
      have hno : ∀ kv1 ∈ rest, kv1.1 ≠ x := by
        intro kv1 h1 hc
        exact hrest ⟨kv1.2, by rw [← hc]; exact h1⟩
      simp only [applyWrites, List.foldl_cons]
      have e1 := applyWrites_not_written rest (mapSet ps kv.1 kv.2) x hno
      simp only [applyWrites] at e1
      rw [e1, mapGet_mapSet, if_pos hk1]
      rfl

theorem applyWrites_isSome_mono (W : List (String × Pos)) :
    ∀ (ps : List (String × Pos)) (x : String), (mapGet ps x).isSome →
      (mapGet (applyWrites ps W) x).isSome := by
  induction W with
  | nil => intro ps x h; exact h
  | cons kv rest ih =>
    intro ps x h
    simp only [applyWrites, List.foldl_cons]
    refine ih (mapSet ps kv.1 kv.2) x ?_
    rw [mapGet_mapSet]
    by_cases hk : kv.1 = x
    · rw [if_pos hk]; rfl
    · rw [if_neg hk]; exact h

theorem ensureFold_not_mem (cfg : Config) (w : Rat) :
    ∀ (missing : List String) (acc : List (String × Pos) × Rat) (x : String),
      x ∉ missing → mapGet (ensureFold cfg w missing acc).1 x = mapGet acc.1 x := by
  intro missing
  induction missing with
  | nil => intro acc x _; rfl
  | cons id rest ih =>
    intro acc x hx
    have hxi : ¬ id = x := fun he => hx (he ▸ List.mem_cons_self id rest)
    have hxr : x ∉ rest := fun hc => hx (List.mem_cons_of_mem _ hc)
    simp only [ensureFold]
    rw [ih _ x hxr]
    simp only
    rw [mapGet_mapSet, if_neg hxi]

theorem ensureFold_mem (cfg : Config) (w : Rat) :
    ∀ (missing : List String) (acc : List (String × Pos) × Rat) (x : String),
      x ∈ missing → ∃ xv, mapGet (ensureFold cfg w missing acc).1 x = some ⟨xv, 40⟩ := by
  intro missing
  induction missing with
  | nil => intro acc x hx; simp at hx
  | cons id rest ih =>
    intro acc x hx
    by_cases hxr : x ∈ rest
    · exact ih _ x hxr
    · have hxi : id = x := by
        rcases List.mem_cons.mp hx with h1 | h1
        · exact h1.symm
        · exact absurd h1 hxr
      simp only [ensureFold]
      rw [ensureFold_not_mem cfg w rest _ x hxr]
      simp only
      rw [mapGet_mapSet, if_pos hxi]
      exact ⟨_, rfl⟩

theorem ensure_preserves_some (cfg : Config) (nodeIds : List String) (w : Rat)
    (ps : List (String × Pos)) (x : String) (v : Pos) (h : mapGet ps x = some v) :
    mapGet (_ensurePositionsForMissing cfg nodeIds w ps) x = some v := by
  unfold _ensurePositionsForMissing
  rw [ensureFold_not_mem cfg w _ _ x ?_]
  · exact h
  · intro hc
    have := (List.mem_filter.mp hc).2
    rw [h] at this
    simp at this

theorem ensure_all_some (cfg : Config) (nodeIds : List String) (w : Rat)
    (ps : List (String × Pos)) :
    ∀ id ∈ nodeIds, (mapGet (_ensurePositionsForMissing cfg nodeIds w ps) id).isSome := by
  intro id hid
  unfold _ensurePositionsForMissing
  by_cases hmiss : (mapGet ps id).isNone
  · have hmem2 : id ∈ nodeIds.filter (fun i => (mapGet ps i).isNone) :=
      List.mem_filter.mpr ⟨hid, hmiss⟩
    obtain ⟨xv, hxv⟩ := ensureFold_mem cfg w _ (ps, (40 : Rat)) id hmem2
    rw [hxv]
    rfl
  · rw [ensureFold_not_mem cfg w _ _ id ?_]
    · rw [Option.isSome_iff_ne_none]
      intro hc
      exact hmiss (by rw [hc]; rfl)
    · intro hc
      exact hmiss (List.mem_filter.mp hc).2

theorem ensure_y40 (cfg : Config) (nodeIds : List String) (w : Rat)
    (ps : List (String × Pos)) (id : String) (hid : id ∈ nodeIds)
    (hnone : mapGet ps id = none) :
    ∃ xv, mapGet (_ensurePositionsForMissing cfg nodeIds w ps) id = some ⟨xv, 40⟩ := by
  unfold _ensurePositionsForMissing
  exact ensureFold_mem cfg w _ (ps, (40 : Rat)) id
    (List.mem_filter.mpr ⟨hid, by simp [hnone]⟩)

theorem ensure_identity (cfg : Config) (nodeIds : List String) (w : Rat)
    (ps : List (String × Pos)) (h : ∀ id ∈ nodeIds, (mapGet ps id).isSome) :
    _ensurePositionsForMissing cfg nodeIds w ps = ps := by
  unfold _ensurePositionsForMissing
  have hmiss : nodeIds.filter (fun id => (mapGet ps id).isNone) = [] := by
    rw [List.filter_eq_nil_iff]
    intro id hid hc
    have h1 := h id hid
    rw [Option.isNone_iff_eq_none] at hc
    rw [hc] at h1
    simp at h1
  rw [hmiss]
  rfl

theorem relayout_cycle_eq (cfg : Config) (st : WorkflowState) (r : Bool) (w : Rat)
    (h : (topoSort (idsOf st.data) st.edges).ok = false) :
    relayout cfg st r w
      = { st with
          dragged := if r then [] else st.dragged,
          log := st.log ++
            ["ERROR: cycle detected; layout based on dependencies is not possible."] } := by
  unfold relayout
  simp only []
  rw [if_neg (by rw [h]; exact Bool.false_ne_true)]
  cases r <;> rfl

theorem relayout_ok_eq (cfg : Config) (st : WorkflowState) (r : Bool) (w : Rat)
    (h : (topoSort (idsOf st.data) st.edges).ok = true) :
    relayout cfg st r w
      = { st with
          dragged := if r then [] else st.dragged,
          positions := _ensurePositionsForMissing cfg (idsOf st.data) w
            (applyWrites (if r then [] else st.positions) (layoutWrites cfg st r w)) } := by
  unfold relayout layoutWrites
  simp only []
  rw [if_pos h]
  cases r <;> rfl

theorem layerWrites_not_dragged (cfg : Config) (w : Rat)
    (layers : List (Nat × List String)) (maxD : Nat) (dragged : List String) :
    ∀ kv ∈ layerWrites cfg w layers maxD dragged false, kv.1 ∉ dragged := by
  intro kv hkv
  unfold layerWrites at hkv
  rw [List.mem_flatMap] at hkv
  obtain ⟨d, -, hmem⟩ := hkv
  rw [List.mem_filterMap] at hmem
  obtain ⟨p, -, hp⟩ := hmem
  by_cases hc : (false = false ∧ p.2 ∈ dragged)
  · rw [if_pos hc] at hp
    simp at hp
  · rw [if_neg hc] at hp
    injection hp with hp1
    intro hdr
    refine hc ⟨rfl, ?_⟩
    rw [show p.2 = kv.1 by rw [← hp1]]
    exact hdr

theorem layerWrites_reset_eq (cfg : Config) (w : Rat)
    (layers : List (Nat × List String)) (maxD : Nat) (dragged : List String) :
    layerWrites cfg w layers maxD dragged true = layerWrites cfg w layers maxD [] false := by
  unfold layerWrites
  congr 1

theorem layoutWrites_graph_only (cfg : Config) (st : WorkflowState)
    (P : List (String × Pos)) (L : List String) (r : Bool) (w : Rat) :
    layoutWrites cfg { st with positions := P, log := L } r w = layoutWrites cfg st r w := rfl

theorem relayout_ok_eq_f (cfg : Config) (st : WorkflowState) (w : Rat)
    (h : (topoSort (idsOf st.data) st.edges).ok = true) :
    relayout cfg st false w
      = { st with
          positions := _ensurePositionsForMissing cfg (idsOf st.data) w
            (applyWrites st.positions (layoutWrites cfg st false w)) } := by
  rw [relayout_ok_eq cfg st false w h]
  simp

theorem relayout_cycle_eq_f (cfg : Config) (st : WorkflowState) (w : Rat)
    (h : (topoSort (idsOf st.data) st.edges).ok = false) :
    relayout cfg st false w
      = { st with
          log := st.log ++
            ["ERROR: cycle detected; layout based on dependencies is not possible."] } := by
  rw [relayout_cycle_eq cfg st false w h]
  simp

theorem kahnLoopFuel_eq (out : List (String × List String)) :
    ∀ (fuel : Nat) (indeg : List (String × Int)) (q order : List String),
      q.length + indegWeight indeg ≤ fuel →
      kahnLoopFuel out fuel indeg q order = kahnLoop out indeg q order := by
  intro fuel
  induction fuel with
  | zero =>
    intro indeg q order hm
    cases q with
    | nil =>
      rw [kahnLoop]
      rfl
    | cons id q1 => simp at hm
  | succ fuel ih =>
    intro indeg q order hm
    cases q with
    | nil =>
      rw [kahnLoop]
      rfl
    | cons id q1 =>
      rw [kahnLoop]
      simp only [kahnLoopFuel]
      refine ih _ _ _ ?_
      have := processSuccs_measure ((mapGet out id).getD []) indeg q1
      simp only [List.length_cons] at hm
      omega

/-- Executable restatement of `topoSort`, used to evaluate concrete runs. -/
theorem topoSort_exec (nodes : List String) (edges : List Edge) :
    topoSort nodes edges =
      (let indeg := edges.foldl
        (fun m e => mapSet m e.toId ((mapGet m e.toId).getD 0 + 1))
        (nodes.foldl (fun m id => mapSet m id 0) [])
      let out := edges.foldl
        (fun m e => mapSet m e.fromId ((mapGet m e.fromId).getD [] ++ [e.toId]))
        (nodes.foldl (fun m id => mapSet m id []) [])
      let q := (indeg.filter (fun p => p.2 = 0)).map Prod.fst
      let order := kahnLoopFuel out (q.length + indegWeight indeg) indeg q []
      if order.length ≠ nodes.length then ⟨false, []⟩ else ⟨true, order⟩) := by
  simp only [topoSort]
  rw [kahnLoopFuel_eq _ _ _ _ _ (le_refl _)]

/-! ### Claims -/

/-- Claim C6: whenever `topoSort` reports not ok, `relayout` returns without
    modifying any entry of the positions table and without a thrown error:
    the cycle is only reported by appending the log message, and every existing
    position is preserved unchanged. -/
theorem claim_C6_cycle_preserves_positions (cfg : Config) (st : WorkflowState)
    (r : Bool) (w : Rat)
    (h : (topoSort (idsOf st.data) st.edges).ok = false) :
    (relayout cfg st r w).positions = st.positions ∧
      (relayout cfg st r w).log = st.log ++
        ["ERROR: cycle detected; layout based on dependencies is not possible."] := by
  rw [relayout_cycle_eq cfg st r w h]
  exact ⟨rfl, rfl⟩

theorem claim_C6_witness :
    (topoSort (idsOf exCycSt.data) exCycSt.edges).ok = false ∧
      (relayout exCfg exCycSt false 1000).positions = exCycSt.positions := by
  have h : (topoSort (idsOf exCycSt.data) exCycSt.edges).ok = false := by
    rw [topoSort_exec]
    decide
  exact ⟨h, (claim_C6_cycle_preserves_positions exCfg exCycSt false 1000 h).1⟩

/-- Claim C8: after every successful (non-cycle) `relayout`, every node id of
    the current graph has a defined position; a node the layer pass left
    without one is placed by the fallback pass at the fixed top band
    `y = 40`. -/
theorem claim_C8_every_node_positioned (cfg : Config) (st : WorkflowState)
    (r : Bool) (w : Rat)
    (hok : (topoSort (idsOf st.data) st.edges).ok = true) :
    (∀ id ∈ idsOf st.data, (mapGet (relayout cfg st r w).positions id).isSome) ∧
      (∀ id ∈ idsOf st.data,
        mapGet (applyWrites (if r then [] else st.positions) (layoutWrites cfg st r w)) id
            = none →
          ∃ xv, mapGet (relayout cfg st r w).positions id = some ⟨xv, 40⟩) := by
  rw [relayout_ok_eq cfg st r w hok]
  simp only []
  constructor
  · intro id hid
    exact ensure_all_some cfg (idsOf st.data) w _ id hid
  · intro id hid hnone
    exact ensure_y40 cfg (idsOf st.data) w _ id hid hnone

theorem claim_C8_witness :
    ((topoSort (idsOf exPinned.data) exPinned.edges).ok = true) ∧
      (mapGet (relayout exCfg exPinned false 1000).positions "a").isSome = true ∧
      (mapGet (relayout exCfg exPinned false 1000).positions "d").isSome = true := by
  have h : (topoSort (idsOf exPinned.data) exPinned.edges).ok = true := by
    rw [topoSort_exec]
    decide
  exact ⟨h, (claim_C8_every_node_positioned exCfg exPinned false 1000 h).1 "a" (by decide),
    (claim_C8_every_node_positioned exCfg exPinned false 1000 h).1 "d" (by decide)⟩

/-- Claim C9: `relayout` with `resetDragged = false` and a fixed viewport width
    is idempotent: a second call right after a first one leaves the positions
    table identical (same entry for every id). -/
theorem claim_C9_relayout_idempotent (cfg : Config) (st : WorkflowState) (w : Rat) :
    ∀ x, mapGet (relayout cfg (relayout cfg st false w) false w).positions x
      = mapGet (relayout cfg st false w).positions x := by
  intro x
  cases hok : (topoSort (idsOf st.data) st.edges).ok with
  | false =>
    set L := st.log ++
      ["ERROR: cycle detected; layout based on dependencies is not possible."] with hL
    rw [relayout_cycle_eq_f cfg st w hok]
    rw [relayout_cycle_eq_f cfg { st with log := L } w hok]
  | true =>
    set P := _ensurePositionsForMissing cfg (idsOf st.data) w
      (applyWrites st.positions (layoutWrites cfg st false w)) with hP
    rw [relayout_ok_eq_f cfg st w hok]
    rw [relayout_ok_eq_f cfg { st with positions := P } w hok]
    simp only []
    rw [show layoutWrites cfg { st with positions := P } false w
      = layoutWrites cfg st false w from rfl]
    have hall : ∀ id ∈ idsOf st.data,
        (mapGet (applyWrites
          (_ensurePositionsForMissing cfg (idsOf st.data) w
            (applyWrites st.positions (layoutWrites cfg st false w)))
          (layoutWrites cfg st false w)) id).isSome := by
      intro id hid
      exact applyWrites_isSome_mono _ _ id
        (ensure_all_some cfg (idsOf st.data) w _ id hid)
    rw [ensure_identity cfg (idsOf st.data) w _ hall]
    by_cases hw : ∃ v, (x, v) ∈ layoutWrites cfg st false w
    · rw [applyWrites_written_eq (layoutWrites cfg st false w) _ st.positions x hw]
      obtain ⟨v0, hv0⟩ := Option.isSome_iff_exists.mp
        (applyWrites_written_isSome (layoutWrites cfg st false w) st.positions x hw)
      rw [hv0, ensure_preserves_some cfg (idsOf st.data) w _ x v0 hv0]
    · have hno : ∀ kv ∈ layoutWrites cfg st false w, kv.1 ≠ x := by
        intro kv hkv hc
        refine hw ⟨kv.2, ?_⟩
        rw [← hc, Prod.mk.eta]
        exact hkv
      rw [applyWrites_not_written (layoutWrites cfg st false w) _ x hno]

/-- Counterexample to claim C4: on a cyclic graph, `relayout(resetDragged=true)`
    empties the dragged set but does not clear the positions table — the
    stale position of node `a` survives, so positions were not emptied before
    the (never-reached) assignment phase. -/
theorem claim_C4_counterexample :
    (relayout exCfg exCycSt true 1000).dragged = [] ∧
      (relayout exCfg exCycSt true 1000).positions = [("a", ⟨5, 6⟩)] ∧
      [(("a" : String), (⟨5, 6⟩ : Pos))] ≠ ([] : List (String × Pos)) := by
  have h : (topoSort (idsOf exCycSt.data) exCycSt.edges).ok = false := by
    rw [topoSort_exec]
    decide
  rw [relayout_cycle_eq exCfg exCycSt true 1000 h]
  refine ⟨rfl, rfl, by decide⟩

/-- Claim C4 (amended): `relayout(resetDragged=true)` clears the dragged set
    before the topological-order check, so it is empty afterwards in every
    case; but positions are cleared only after the check succeeds — on a
    cyclic graph they are left untouched, and on success the new table is
    computed from a cleared table. -/
theorem claim_C4_reset_behaviour (cfg : Config) (st : WorkflowState) (w : Rat) :
    (relayout cfg st true w).dragged = [] ∧
      ((topoSort (idsOf st.data) st.edges).ok = false →
        (relayout cfg st true w).positions = st.positions) ∧
      ((topoSort (idsOf st.data) st.edges).ok = true →
        (relayout cfg st true w).positions
          = _ensurePositionsForMissing cfg (idsOf st.data) w
              (applyWrites [] (layoutWrites cfg st true w))) := by
  refine ⟨?_, ?_, ?_⟩
  · cases hok : (topoSort (idsOf st.data) st.edges).ok with
    | false =>
      rw [relayout_cycle_eq cfg st true w hok]
      simp
    | true =>
      rw [relayout_ok_eq cfg st true w hok]
      simp
  · intro h
    rw [relayout_cycle_eq cfg st true w h]
  · intro h
    rw [relayout_ok_eq cfg st true w h]
    simp

theorem claim_C4_witness :
    (relayout exCfg exCycSt true 1000).dragged = [] ∧
      (relayout exCfg exCycSt true 1000).positions = exCycSt.positions := by
  have h : (topoSort (idsOf exCycSt.data) exCycSt.edges).ok = false := by
    rw [topoSort_exec]
    decide
  exact ⟨(claim_C4_reset_behaviour exCfg exCycSt 1000).1,
    (claim_C4_reset_behaviour exCfg exCycSt 1000).2.1 h⟩

/-- Claim C5: a node pinned (dragged) at position `P` keeps exactly that
    position across `relayout(resetDragged=false)`; and
    `relayout(resetDragged=true)` on an acyclic graph behaves exactly like a
    relayout from a state with the pinned set and the positions cleared —
    every position, the pinned node's included, is recomputed afresh by the
    layered pass. -/
theorem claim_C5_pin_preservation (cfg : Config) (st : WorkflowState) (w : Rat)
    (X : String) (P : Pos) :
    (X ∈ st.dragged → mapGet st.positions X = some P →
      mapGet (relayout cfg st false w).positions X = some P) ∧
    ((topoSort (idsOf st.data) st.edges).ok = true →
      relayout cfg st true w
        = relayout cfg { st with dragged := [], positions := [] } false w) := by
  constructor
  · intro hX hP
    cases hok : (topoSort (idsOf st.data) st.edges).ok with
    | false =>
      rw [relayout_cycle_eq_f cfg st w hok]
      exact hP
    | true =>
      rw [relayout_ok_eq_f cfg st w hok]
      simp only []
      have hno : ∀ kv ∈ layoutWrites cfg st false w, kv.1 ≠ X := by
        intro kv hkv hc
        simp only [layoutWrites] at hkv
        rw [if_neg (Bool.false_ne_true)] at hkv
        have := layerWrites_not_dragged cfg w _ _ st.dragged kv hkv
        exact this (hc ▸ hX)
      refine ensure_preserves_some cfg _ w _ X P ?_
      rw [applyWrites_not_written _ _ X hno]
      exact hP
  · intro hok
    rw [relayout_ok_eq cfg st true w hok]
    rw [relayout_ok_eq_f cfg { st with dragged := [], positions := [] } w hok]
    simp only []
    have hW : layoutWrites cfg st true w
        = layoutWrites cfg { st with dragged := [], positions := [] } false w := by
      simp only [layoutWrites]
      rw [layerWrites_reset_eq]
      rfl
    rw [hW]
    simp

theorem claim_C5_witness :
    ("b" ∈ exPinned.dragged) ∧ mapGet exPinned.positions "b" = some ⟨7, 8⟩ ∧
      mapGet (relayout exCfg exPinned false 1000).positions "b" = some ⟨7, 8⟩ ∧
      relayout exCfg exPinned true 1000
        = relayout exCfg { exPinned with dragged := [], positions := [] } false 1000 := by
  have hok : (topoSort (idsOf exPinned.data) exPinned.edges).ok = true := by
    rw [topoSort_exec]
    decide
  have hmem : "b" ∈ exPinned.dragged := by decide
  have hpos : mapGet exPinned.positions "b" = some ⟨7, 8⟩ := by decide
  exact ⟨hmem, hpos,
    (claim_C5_pin_preservation exCfg exPinned 1000 "b" ⟨7, 8⟩).1 hmem hpos,
    (claim_C5_pin_preservation exCfg exPinned 1000 "b" ⟨7, 8⟩).2 hok⟩

/-- Claim C2: for every validly loaded acyclic graph, `topoSort` reports ok
    with an order that contains every node id exactly once (and nothing else)
    and, for every edge, places the source strictly before the target. -/
theorem claim_C2_topoSort_acyclic (d : RawWorkflow) (byId : List (String × RawNode))
    (edges : List Edge)
    (hload : _validateAndBuildGraph d = (byId, edges, none))
    (hacyc : ∀ a, ¬ Relation.TransGen (edgeRel edges) a a) :
    (topoSort (idsOf d) edges).ok = true ∧
      (∀ id ∈ idsOf d, (topoSort (idsOf d) edges).order.count id = 1) ∧
      (∀ id ∈ (topoSort (idsOf d) edges).order, id ∈ idsOf d) ∧
      (∀ e ∈ edges, (topoSort (idsOf d) edges).order.indexOf e.fromId
          < (topoSort (idsOf d) edges).order.indexOf e.toId) := by
  obtain ⟨-, -, -, hnd, hclosed⟩ := validate_ok d byId edges hload
  have hok := topoSort_complete (idsOf d) edges hnd hclosed hacyc
  obtain ⟨hndO, hmem, hidx⟩ := topoSort_sound (idsOf d) edges hnd hclosed hok
  refine ⟨hok, ?_, fun id h => (hmem id).mp h, hidx⟩
  intro id hid
  exact List.count_eq_one_of_mem hndO ((hmem id).mpr hid)

theorem claim_C2_witness :
    (topoSort (idsOf exDiamond) (_validateAndBuildGraph exDiamond).2.1).ok = true ∧
      (topoSort (idsOf exDiamond) (_validateAndBuildGraph exDiamond).2.1).order.count "d"
        = 1 ∧
      (topoSort (idsOf exDiamond) (_validateAndBuildGraph exDiamond).2.1).order.indexOf "a"
        < (topoSort (idsOf exDiamond) (_validateAndBuildGraph exDiamond).2.1).order.indexOf
            "b" := by
  have hok1 : (topoSort (idsOf exDiamond) (_validateAndBuildGraph exDiamond).2.1).ok
      = true := by
    rw [topoSort_exec]
    decide
  have hacyc := acyclic_of_topoSort_ok (idsOf exDiamond)
    (_validateAndBuildGraph exDiamond).2.1 (by decide) (by decide) hok1
  have h := claim_C2_topoSort_acyclic exDiamond (_validateAndBuildGraph exDiamond).1
    (_validateAndBuildGraph exDiamond).2.1 (by decide) hacyc
  exact ⟨h.1, h.2.1 "d" (by decide),
    h.2.2.2 (Edge.mk "a" "b") (by decide)⟩

/-- Claim C3: for every validly loaded graph whose edges contain a cycle,
    `topoSort` returns `ok = false` and an empty order. -/
theorem claim_C3_topoSort_cyclic (d : RawWorkflow) (byId : List (String × RawNode))
    (edges : List Edge)
    (hload : _validateAndBuildGraph d = (byId, edges, none))
    (hcyc : ∃ a, Relation.TransGen (edgeRel edges) a a) :
    (topoSort (idsOf d) edges).ok = false ∧ (topoSort (idsOf d) edges).order = [] := by
  obtain ⟨-, -, -, hnd, hclosed⟩ := validate_ok d byId edges hload
  rw [topoSort_cyclic (idsOf d) edges hnd hclosed hcyc]
  exact ⟨rfl, rfl⟩

theorem claim_C3_witness :
    (topoSort (idsOf exCyc) (_validateAndBuildGraph exCyc).2.1).ok = false ∧
      (topoSort (idsOf exCyc) (_validateAndBuildGraph exCyc).2.1).order = [] := by
  have h1 : edgeRel (_validateAndBuildGraph exCyc).2.1 "a" "b" := by
    unfold edgeRel
    decide
  have h2 : edgeRel (_validateAndBuildGraph exCyc).2.1 "b" "a" := by
    unfold edgeRel
    decide
  exact claim_C3_topoSort_cyclic exCyc (_validateAndBuildGraph exCyc).1
    (_validateAndBuildGraph exCyc).2.1 (by decide)
    ⟨"a", Relation.TransGen.head h1 (Relation.TransGen.single h2)⟩

/-- Claim C7: over a validly loaded graph and the (valid) order `topoSort`
    produced, the computed depth table satisfies the depth equations — 0 for a
    node without dependencies, otherwise 1 plus the maximum of its
    dependencies' depths — and consequently every edge strictly increases
    depth from source to target. -/
theorem claim_C7_depths (d : RawWorkflow) (byId : List (String × RawNode))
    (edges : List Edge) (order : List String)
    (hload : _validateAndBuildGraph d = (byId, edges, none))
    (htopo : topoSort (idsOf d) edges = ⟨true, order⟩) :
    (∀ b n, (b, n) ∈ byId → n.depends_on = [] →
        mapGet (_computeDepths byId order) b = some 0) ∧
      (∀ b n, (b, n) ∈ byId → n.depends_on ≠ [] →
        mapGet (_computeDepths byId order) b
          = some (1 + n.depends_on.foldl
              (fun a dep => max a (depDepth (_computeDepths byId order) dep)) 0)) ∧
      (∀ e ∈ edges, (mapGet (_computeDepths byId order) e.fromId).getD 0
          < (mapGet (_computeDepths byId order) e.toId).getD 0) := by
  obtain ⟨hbyId, hedges, -, hnd, hclosed⟩ := validate_ok d byId edges hload
  have hok : (topoSort (idsOf d) edges).ok = true := by rw [htopo]
  obtain ⟨hndO, hmemO, hidxO⟩ := topoSort_sound (idsOf d) edges hnd hclosed hok
  have horder : (topoSort (idsOf d) edges).order = order := by rw [htopo]
  rw [horder] at hndO hmemO hidxO
  subst hbyId
  subst hedges
  have hspec := computeDepths_spec (d.nodes.getD []) order
    (by rw [← idsOf_eq_rawIds]; exact hnd)
    hndO
    (fun x => by rw [← idsOf_eq_rawIds]; exact hmemO x)
    (fun e he => by rw [← idsOf_eq_rawIds]; exact (hclosed e he).1)
    hidxO
  refine ⟨?_, ?_, ?_⟩
  · intro b n hbn hnil
    rw [hspec b n hbn]
    congr 1
    simp [depthStep, hnil]
  · intro b n hbn hne
    rw [hspec b n hbn, depthStep_ne_nil hne]
  · intro e he
    obtain ⟨p, hp, ht, hf⟩ := (mem_edgesOf _ e).mp he
    obtain ⟨dep, hd, hdep⟩ := (mem_depIds p.2 e.fromId).mp hf
    have hb := hspec p.1 p.2 (by rw [Prod.mk.eta]; exact hp)
    rw [ht, hb, Option.getD_some]
    have hge : depDepth (_computeDepths (nodePairs (d.nodes.getD [])) order) dep + 1
        ≤ depthStep (_computeDepths (nodePairs (d.nodes.getD [])) order) p.2 := by
      unfold depthStep
      exact foldl_max_elem
        (fun dep => depDepth (_computeDepths (nodePairs (d.nodes.getD [])) order) dep + 1)
        p.2.depends_on 0 dep hd
    have hdd : depDepth (_computeDepths (nodePairs (d.nodes.getD [])) order) dep
        = (mapGet (_computeDepths (nodePairs (d.nodes.getD [])) order) e.fromId).getD 0 := by
      cases dep with
      | none => simp at hdep
      | some dd =>
        cases hnid : dd.node_id with
        | none => simp [hnid] at hdep
        | some s =>
          have hse : s = e.fromId := by
            simp [hnid] at hdep
            exact hdep
          simp [depDepth, hnid, hse]
    omega

theorem claim_C7_witness :
    mapGet (_computeDepths (_validateAndBuildGraph exDiamond).1
        (topoSort (idsOf exDiamond) (_validateAndBuildGraph exDiamond).2.1).order) "a"
      = some 0 ∧
    mapGet (_computeDepths (_validateAndBuildGraph exDiamond).1
        (topoSort (idsOf exDiamond) (_validateAndBuildGraph exDiamond).2.1).order) "d"
      = some (1 + (⟨some "d", [some ⟨some "b"⟩, some ⟨some "c"⟩]⟩ : RawNode).depends_on.foldl
          (fun a dep => max a (depDepth (_computeDepths (_validateAndBuildGraph exDiamond).1
            (topoSort (idsOf exDiamond) (_validateAndBuildGraph exDiamond).2.1).order) dep)) 0) := by
  have htopo : topoSort (idsOf exDiamond) (_validateAndBuildGraph exDiamond).2.1
      = ⟨true, (topoSort (idsOf exDiamond) (_validateAndBuildGraph exDiamond).2.1).order⟩ := by
    rw [topoSort_exec]
    decide
  have h := claim_C7_depths exDiamond (_validateAndBuildGraph exDiamond).1
    (_validateAndBuildGraph exDiamond).2.1
    (topoSort (idsOf exDiamond) (_validateAndBuildGraph exDiamond).2.1).order
    (by decide) htopo
  refine ⟨?_, ?_⟩
  · refine h.1 "a" ⟨some "a", []⟩ ?_ rfl
    decide
  · refine h.2.1 "d" ⟨some "d", [some ⟨some "b"⟩, some ⟨some "c"⟩]⟩ ?_ (by decide)
    decide

/-- Claim C10: a node whose `depends_on` contains its own id passes load
    validation (the reference check only requires the id to exist in the node
    set, which includes the node itself), producing a self-loop edge; the
    self-dependency only surfaces later, as `topoSort` reporting
    `ok = false`, never as a load-time error. -/
theorem claim_C10_selfdep (d : RawWorkflow)
    (hv : allValid (d.nodes.getD []))
    (hnd : (idsOf d).Nodup)
    (hdeps : ∀ p ∈ nodePairs (d.nodes.getD []), ∀ dep ∈ p.2.depends_on,
      ∃ dd s, dep = some dd ∧ dd.node_id = some s ∧ s ∈ idsOf d)
    (b : String) (n : RawNode) (hb : (b, n) ∈ nodePairs (d.nodes.getD []))
    (hself : b ∈ depIds n) :
    (_validateAndBuildGraph d).2.2 = none ∧
      Edge.mk b b ∈ (_validateAndBuildGraph d).2.1 ∧
      topoSort (idsOf d) (_validateAndBuildGraph d).2.1 = ⟨false, []⟩ := by
  have hval := validate_succeeds d hv hnd hdeps
  have hedge : Edge.mk b b ∈ edgesOf (d.nodes.getD []) := by
    rw [mem_edgesOf]
    exact ⟨(b, n), hb, rfl, hself⟩
  obtain ⟨-, -, -, -, hclosed⟩ :=
    validate_ok d (nodePairs (d.nodes.getD [])) (edgesOf (d.nodes.getD [])) hval
  refine ⟨by rw [hval], by rw [hval]; exact hedge, ?_⟩
  rw [show (_validateAndBuildGraph d).2.1 = edgesOf (d.nodes.getD []) by rw [hval]]
  exact topoSort_cyclic (idsOf d) (edgesOf (d.nodes.getD [])) hnd hclosed
    ⟨b, Relation.TransGen.single hedge⟩

theorem claim_C10_witness :
    (_validateAndBuildGraph exSelf).2.2 = none ∧
      Edge.mk "s" "s" ∈ (_validateAndBuildGraph exSelf).2.1 ∧
      topoSort (idsOf exSelf) (_validateAndBuildGraph exSelf).2.1 = ⟨false, []⟩ := by
  have hdeps : ∀ p ∈ nodePairs (exSelf.nodes.getD []), ∀ dep ∈ p.2.depends_on,
      ∃ dd s, dep = some dd ∧ dd.node_id = some s ∧ s ∈ idsOf exSelf := by
    intro p hp dep hd
    rw [show nodePairs (exSelf.nodes.getD [])
        = [("s", ⟨some "s", [some ⟨some "s"⟩]⟩)] from rfl] at hp
    rw [List.mem_singleton.mp hp] at hd
    simp only [] at hd
    rw [List.mem_singleton.mp hd]
    exact ⟨⟨some "s"⟩, "s", rfl, rfl, by decide⟩
  have hv : allValid (exSelf.nodes.getD []) := by
    intro m hm
    rw [show exSelf.nodes.getD [] = [some ⟨some "s", [some ⟨some "s"⟩]⟩] from rfl] at hm
    rw [List.mem_singleton.mp hm]
    exact ⟨⟨some "s", [some ⟨some "s"⟩]⟩, "s", rfl, rfl, by decide⟩
  exact claim_C10_selfdep exSelf hv (by decide) hdeps "s"
    ⟨some "s", [some ⟨some "s"⟩]⟩ (by decide) (by decide)

/-- Counterexample to claim C1: loading a duplicate-id workflow over a
    previously loaded diamond graph throws the duplicate-id error, yet the
    prior graph does not remain in effect — `data` is replaced by the bad
    input, `byId` now holds the scanned prefix of the new nodes, and the four
    previously derived edges are gone. -/
theorem claim_C1_counterexample :
    (setData exDiamondSt (some exDup)).2.isSome = true ∧
      (setData exDiamondSt (some exDup)).1.byId ≠ exDiamondSt.byId ∧
      (setData exDiamondSt (some exDup)).1.edges ≠ exDiamondSt.edges ∧
      (setData exDiamondSt (some exDup)).1.data ≠ exDiamondSt.data := by
  decide

/-- Claim C1 (amended): a failing load still reports the error and commits no
    complete graph, but the prior graph does not remain in effect: the
    post-call `data`, `byId`, `edges` and the reported error are functions of
    the new raw input alone (identical across any two prior states), a
    first-pass failure leaves the edge list freshly cleared, and only the
    positions table, pinned set and log survive from before the call. -/
theorem claim_C1_load_failure_overwrites (st1 st2 : WorkflowState)
    (workflow : Option RawWorkflow)
    (hfail : (setData st1 workflow).2.isSome = true) :
    (setData st1 workflow).1.data = (setData st2 workflow).1.data ∧
      (setData st1 workflow).1.byId = (setData st2 workflow).1.byId ∧
      (setData st1 workflow).1.edges = (setData st2 workflow).1.edges ∧
      (setData st1 workflow).2 = (setData st2 workflow).2 ∧
      (setData st1 workflow).1.positions = st1.positions ∧
      (setData st1 workflow).1.dragged = st1.dragged ∧
      (setData st1 workflow).1.log = st1.log ∧
      ((scanNodes ((setData st1 workflow).1.data.nodes.getD []) []).2.isSome = true →
        (setData st1 workflow).1.edges = []) := by
  refine ⟨rfl, rfl, rfl, rfl, rfl, rfl, rfl, ?_⟩
  intro hscan
  cases workflow with
  | none => simp [setData, scanNodes] at hscan
  | some wf =>
    unfold setData at hscan ⊢
    simp only [] at hscan ⊢
    unfold _validateAndBuildGraph
    simp only []
    cases hs : (scanNodes (wf.nodes.getD []) []).2 with
    | some m =>
      rfl
    | none =>
      rw [hs] at hscan
      simp at hscan

theorem claim_C1_amended_witness :
    (setData exDiamondSt (some exDup)).2.isSome = true ∧
      (setData exDiamondSt (some exDup)).1.byId = (setData exEmpty (some exDup)).1.byId ∧
      (setData exDiamondSt (some exDup)).1.edges = [] := by
  have h := claim_C1_load_failure_overwrites exDiamondSt exEmpty (some exDup) (by decide)
  exact ⟨by decide, h.2.1, h.2.2.2.2.2.2.2 (by decide)⟩

end Workflow

